import Mathlib

/-!
# Specialization cache of `bm-jit/FunctionSpecialization.h`

A shallow embedding of `Binding`, `FunctionSpecialization` and
`SpecializationStorage`, and behind it of the glob matchers of
`glob-jit/glob_pattern.cpp`, followed by theorems about `store`, `evict`, the
three `find` strategies, `get_pointer`, `invoke` and the matchers.

Conventions of the embedding:

* `Binding::match_t` is `int`; it is embedded as the integers between
  `INT_MIN` and `INT_MAX`.
* An out-parameter `score` becomes an argument (the value it held before the
  call) and a component of the result (the value it holds afterwards).
* A pointer or reference to a `Specialization` is an address, a natural
  number counted in units of `sizeof(Specialization)`; `0` is `nullptr` for the
  cached function pointer, and a `const Specialization*` result is an
  `Option` whose `none` is `nullptr`.
* `std::vector` is a buffer address, a capacity and the list of its elements;
  element `i` lives at address `data + i`.
* A method that changes its object or may not return yields a `Call`: how the
  call ended, the object afterwards, and how often the symbol was asked for
  its address.
* `find` is given twice: as the pointer and score it returns (`find`), and as
  a run that also hands back the object it was called on (`find_run`).
* Iterators are positions; a loop over `cbegin() .. cend()` is a recursion over
  the elements not yet visited together with the position of the first of
  them, a loop over `crbegin() .. crend()` a recursion over the reversed
  elements. The loops are read as the forward and reverse traversals they
  spell out; the `const` the source puts on the iterator variable is left
  aside, as is the conversion between an iterator and the address of its
  element.
-/

namespace BmJit

/-! ## `Binding` -/

/-- The type `Binding::match_t`, a 32-bit `int`. -/
abbrev match_t : Type := { z : Int // -2147483648 ≤ z ∧ z ≤ 2147483647 }

/-- The sentinel `Binding::mismatch`, `std::numeric_limits<int>::min()`. -/
def Binding.mismatch : match_t := ⟨-2147483648, by decide⟩

/-- The sentinel `Binding::match`, `std::numeric_limits<int>::max()`. -/
def Binding.match_ : match_t := ⟨2147483647, by decide⟩

/-- What the template parameter `RuntimeParams` has to provide: the method
`matchWith`, called on the stored binding with the requested one. -/
class RuntimeParams (P : Type) where
  matchWith : P → P → match_t

/-- The class `Binding`: the dummy for empty specialization bindings. -/
structure Binding where
  deriving DecidableEq

/-- The method `Binding::matchWith`: by default all functions are inequal. -/
def Binding.matchWith (_self _requested : Binding) : match_t :=
  Binding.mismatch

instance : RuntimeParams Binding where
  matchWith := Binding.matchWith

/-! ## `FunctionSpecialization` -/

/-- The type `llvm::Expected<T>`: a value or an error. -/
inductive Expected (α : Type) where
  | value (a : α)
  | error (message : String)
  deriving DecidableEq

/-- The part of `llvm::JITSymbol` the class uses: what `getAddress()` yields,
an address or an error. -/
structure JITSymbol where
  getAddress : Expected Nat
  deriving DecidableEq

/-- The class `FunctionSpecialization<FunctionType, RuntimeParams>`: the
subobject of its base `RuntimeParams` and the members `_jitSymbol` and
`_pointer` (`0` is `nullptr`). -/
structure FunctionSpecialization (P : Type) where
  params : P
  _jitSymbol : JITSymbol
  _pointer : Nat
  deriving DecidableEq

/-- The constructor `FunctionSpecialization(jitSymbol, runtimeParams)`: both
arguments are moved in and `_pointer` starts as `nullptr`. -/
def FunctionSpecialization.new {P : Type} (jitSymbol : JITSymbol) (runtimeParams : P) :
    FunctionSpecialization P :=
  { params := runtimeParams, _jitSymbol := jitSymbol, _pointer := 0 }

/-- The move constructor `FunctionSpecialization(FunctionSpecialization&&)`:
the new object takes base, symbol and pointer of `move`. -/
def FunctionSpecialization.moved {P : Type} (move : FunctionSpecialization P) :
    FunctionSpecialization P :=
  { params := move.params, _jitSymbol := move._jitSymbol, _pointer := move._pointer }

/-- The inherited method `matchWith` of a stored specialization. -/
def FunctionSpecialization.matchWith {P : Type} [RuntimeParams P]
    (self : FunctionSpecialization P) (requested : P) : match_t :=
  RuntimeParams.matchWith self.params requested

/-- How a call ends for its caller: it returns a value, or the process is
aborted before it returns. -/
inductive Outcome (α : Type) where
  | returned (a : α)
  | aborted (message : String)
  deriving DecidableEq

/-- The function `llvm::cantFail` of `llvm/Support/Error.h`: it unwraps the
value of an `Expected`, and on a failure value it does not return but reports
a fatal error with its default message. -/
def cantFail {α : Type} : Expected α → Outcome α
  | Expected.value a => Outcome.returned a
  | Expected.error _ => Outcome.aborted "Failure value returned from cantFail wrapped call"

/-- What a call of a method of `FunctionSpecialization` leaves behind: how it
ended, the object afterwards (at an abort, the object at that moment) and how
many times it called `_jitSymbol.getAddress()`. -/
structure Call (P α : Type) where
  outcome : Outcome α
  self : FunctionSpecialization P
  getAddressCalls : Nat
  deriving DecidableEq

/-- The method `get_pointer`: when `_pointer` is null the address of the
symbol is taken through `cantFail` and stored in `_pointer`; then `_pointer`
is returned. -/
def FunctionSpecialization.get_pointer {P : Type} (self : FunctionSpecialization P) :
    Call P Nat :=
  if self._pointer = 0 then
    match cantFail self._jitSymbol.getAddress with
    | Outcome.returned addr =>
      { outcome := Outcome.returned addr
        self := { self with _pointer := addr }
        getAddressCalls := 1 }
    | Outcome.aborted message =>
      { outcome := Outcome.aborted message, self := self, getAddressCalls := 1 }
  else
    { outcome := Outcome.returned self._pointer, self := self, getAddressCalls := 0 }

/-- A `std::vector<α>`: the address of its buffer, its capacity and its
elements in order. -/
structure vector (α : Type) where
  data : Nat
  capacity : Nat
  elems : List α
  deriving DecidableEq

/-- The default-constructed vector: no buffer, no elements. -/
def vector.empty {α : Type} : vector α :=
  { data := 0, capacity := 0, elems := [] }

/-- The address of the element at position `i`. -/
def vector.addr {α : Type} (v : vector α) (i : Nat) : Nat :=
  v.data + i

/-- The element an address points at, if it points into the vector. -/
def vector.deref {α : Type} (v : vector α) (p : Nat) : Option α :=
  if v.data ≤ p then v.elems[p - v.data]? else none

/-- The call `emplace_back(x)`, with the move constructor `mv` of the element
type. While `size() < capacity()` the element is built in place behind the
others. Otherwise the vector reallocates: `newData` is the address of the
buffer the allocator hands out, the capacity grows to
`size() + max(size(), 1)`, and the old elements are move-constructed into the
new buffer. -/
def vector.emplace_back {α : Type} (mv : α → α) (v : vector α) (newData : Nat) (x : α) :
    vector α :=
  if v.elems.length < v.capacity then
    { v with elems := v.elems ++ [x] }
  else
    { data := newData
      capacity := v.elems.length + max v.elems.length 1
      elems := v.elems.map mv ++ [x] }

/-- The call `erase(it)` for the position `i`: the later elements move one
slot down; buffer and capacity stay. -/
def vector.erase {α : Type} (v : vector α) (i : Nat) : vector α :=
  { v with elems := v.elems.eraseIdx i }

/-! ## `SpecializationStorage` -/

/-- The enumeration `SpecializationStorage::FindStrategy`. -/
inductive FindStrategy where
  | First
  | Last
  | Best
  deriving DecidableEq

/-- The class `SpecializationStorage<FunctionType, RuntimeParams>`. -/
structure SpecializationStorage (P : Type) where
  _storage : vector (FunctionSpecialization P)
  deriving DecidableEq

namespace SpecializationStorage

variable {P : Type}

/-- The default constructor. -/
def empty : SpecializationStorage P :=
  { _storage := vector.empty }

/-- The loop of `find_first` from position `i` on, `rest` being the elements
from there to the end. The result is the returned pointer and the final
`score`. -/
def find_first_loop [RuntimeParams P] (data : Nat) (binding : P) :
    List (FunctionSpecialization P) → Nat → Option Nat × match_t
  | [], _ => (none, Binding.mismatch)
  | it :: rest, i =>
    let score := it.matchWith binding
    if score ≠ Binding.mismatch then (some (data + i), score)
    else find_first_loop data binding rest (i + 1)

/-- The method `find_first`. -/
def find_first [RuntimeParams P] (self : SpecializationStorage P) (binding : P)
    (_score : match_t) : Option Nat × match_t :=
  find_first_loop self._storage.data binding self._storage.elems 0

/-- The loop of `find_last`; `rest` holds the elements not yet visited, the
last one first, so the visited element stands at position `rest.length`. -/
def find_last_loop [RuntimeParams P] (data : Nat) (binding : P) :
    List (FunctionSpecialization P) → Option Nat × match_t
  | [] => (none, Binding.mismatch)
  | it :: rest =>
    let score := it.matchWith binding
    if score ≠ Binding.mismatch then (some (data + rest.length), score)
    else find_last_loop data binding rest

/-- The method `find_last`. -/
def find_last [RuntimeParams P] (self : SpecializationStorage P) (binding : P)
    (_score : match_t) : Option Nat × match_t :=
  find_last_loop self._storage.data binding self._storage.elems.reverse

/-- The loop of `find_best` from position `i` on, with the current values of
`best` and `score`. -/
def find_best_loop [RuntimeParams P] (data : Nat) (binding : P) :
    List (FunctionSpecialization P) → Nat → Option Nat → match_t → Option Nat × match_t
  | [], _, best, score => (best, score)
  | it :: rest, i, best, score =>
    let temp := it.matchWith binding
    if temp = Binding.match_ then (some (data + i), temp)
    else if temp.val > score.val then
      find_best_loop data binding rest (i + 1) (some (data + i)) temp
    else find_best_loop data binding rest (i + 1) best score

/-- The method `find_best`: `score` is first set to `mismatch`, `best` to
`nullptr`. -/
def find_best [RuntimeParams P] (self : SpecializationStorage P) (binding : P)
    (_score : match_t) : Option Nat × match_t :=
  find_best_loop self._storage.data binding self._storage.elems 0 none Binding.mismatch

/-- The method `find`: the returned pointer and the value of `score` after
the call. -/
def find [RuntimeParams P] (self : SpecializationStorage P) (binding : P) (score : match_t)
    (strategy : FindStrategy) : Option Nat × match_t :=
  match strategy with
  | FindStrategy.First => self.find_first binding score
  | FindStrategy.Last => self.find_last binding score
  | FindStrategy.Best => self.find_best binding score

/-- What a call of `find` leaves behind: the object afterwards, the returned
pointer and the value of `score` afterwards. -/
structure FindCall (P : Type) where
  self : SpecializationStorage P
  result : Option Nat
  score : match_t

/-- The loop of `find_first` as a run on the object: `self` is the object as
the iteration finds it. The elements are reached through `cbegin()` and
`cend()` and no statement of the loop assigns to `_storage`, so every
iteration hands the object on as it is. -/
def find_first_run_loop [RuntimeParams P] (binding : P) :
    SpecializationStorage P → List (FunctionSpecialization P) → Nat → FindCall P
  | self, [], _ => { self := self, result := none, score := Binding.mismatch }
  | self, it :: rest, i =>
    let score := it.matchWith binding
    if score ≠ Binding.mismatch then
      { self := self, result := some (self._storage.data + i), score := score }
    else find_first_run_loop binding self rest (i + 1)

/-- The loop of `find_last` as a run on the object. -/
def find_last_run_loop [RuntimeParams P] (binding : P) :
    SpecializationStorage P → List (FunctionSpecialization P) → FindCall P
  | self, [] => { self := self, result := none, score := Binding.mismatch }
  | self, it :: rest =>
    let score := it.matchWith binding
    if score ≠ Binding.mismatch then
      { self := self, result := some (self._storage.data + rest.length), score := score }
    else find_last_run_loop binding self rest

/-- The loop of `find_best` as a run on the object. -/
def find_best_run_loop [RuntimeParams P] (binding : P) :
    SpecializationStorage P → List (FunctionSpecialization P) → Nat → Option Nat → match_t →
      FindCall P
  | self, [], _, best, score => { self := self, result := best, score := score }
  | self, it :: rest, i, best, score =>
    let temp := it.matchWith binding
    if temp = Binding.match_ then
      { self := self, result := some (self._storage.data + i), score := temp }
    else if temp.val > score.val then
      find_best_run_loop binding self rest (i + 1) (some (self._storage.data + i)) temp
    else find_best_run_loop binding self rest (i + 1) best score

/-- The method `find` as a run on the object: the strategy selects the loop,
which starts from the elements of the object it is called on; `find_best`
first sets `score` to `mismatch` and `best` to `nullptr`. -/
def find_run [RuntimeParams P] (self : SpecializationStorage P) (binding : P)
    (_score : match_t) (strategy : FindStrategy) : FindCall P :=
  match strategy with
  | FindStrategy.First => find_first_run_loop binding self self._storage.elems 0
  | FindStrategy.Last => find_last_run_loop binding self self._storage.elems.reverse
  | FindStrategy.Best =>
    find_best_run_loop binding self self._storage.elems 0 none Binding.mismatch

/-- The method `store`: `emplace_back` of a new specialization, then a
reference to `back()`. The result is the storage afterwards and the address
the returned reference holds. -/
def store (self : SpecializationStorage P) (newData : Nat) (jitSymbol : JITSymbol)
    (runtimeParams : P) : SpecializationStorage P × Nat :=
  let v := self._storage.emplace_back FunctionSpecialization.moved newData
    (FunctionSpecialization.new jitSymbol runtimeParams)
  ({ _storage := v }, v.addr (v.elems.length - 1))

/-- The loop of `evict` from position `i` on: the position whose address is
that of `specialization`, if the loop meets one. -/
def evict_loop (data : Nat) (specialization : Nat) :
    List (FunctionSpecialization P) → Nat → Option Nat
  | [], _ => none
  | _ :: rest, i =>
    if data + i = specialization then some i
    else evict_loop data specialization rest (i + 1)

/-- The method `evict`: the returned flag and the storage afterwards. -/
def evict (self : SpecializationStorage P) (specialization : Nat) :
    Bool × SpecializationStorage P :=
  match evict_loop self._storage.data specialization self._storage.elems 0 with
  | some i => (true, { _storage := self._storage.erase i })
  | none => (false, self)

/-- The repository that holds the entries of `self` in reversed order. -/
def reversed (self : SpecializationStorage P) : SpecializationStorage P :=
  { _storage := { self._storage with elems := self._storage.elems.reverse } }

end SpecializationStorage

/-! ## A client binding for concrete runs -/

/-- A client binding for concrete runs: a stored binding reports its
own fixed score against every request. -/
structure FixedScore where
  score : match_t
  deriving DecidableEq

instance : RuntimeParams FixedScore where
  matchWith self _ := self.score

/-- A specialization whose binding reports the score `z`. -/
def scored (z : Int) (h : -2147483648 ≤ z ∧ z ≤ 2147483647) : FunctionSpecialization FixedScore :=
  FunctionSpecialization.new { getAddress := Expected.value 4096 } { score := ⟨z, h⟩ }

/-- A requested binding for concrete runs. -/
def request : FixedScore :=
  { score := ⟨0, by decide⟩ }

/-- A repository of three entries scoring 5, 9, 9 in insertion order, in a
buffer at address 100 with room for four. -/
def sample599 : SpecializationStorage FixedScore :=
  { _storage := { data := 100, capacity := 4,
                  elems := [scored 5 (by decide), scored 9 (by decide), scored 9 (by decide)] } }

/-- A repository of three entries scoring 5, `match`, 9, in a buffer at
address 200 with room for four. -/
def sampleMatch : SpecializationStorage FixedScore :=
  { _storage := { data := 200, capacity := 4,
                  elems := [scored 5 (by decide), scored 2147483647 (by decide),
                            scored 9 (by decide)] } }

/-- A binding for concrete runs that reports the score `z`. -/
def fixed (z : Int) (h : -2147483648 ≤ z ∧ z ≤ 2147483647) : FixedScore :=
  { score := ⟨z, h⟩ }

/-- A symbol that resolves to the address `a`. -/
def symbolAt (a : Nat) : JITSymbol :=
  { getAddress := Expected.value a }

/-- A run from the empty repository, first `store`: the vector allocates a
buffer for one element, here at address 100. -/
def afterStore1 : SpecializationStorage FixedScore × Nat :=
  SpecializationStorage.empty.store 100 (symbolAt 4096) (fixed 1 (by decide))

/-- Second `store` of the run: the vector is full and reallocates, here to
address 200, with room for two. -/
def afterStore2 : SpecializationStorage FixedScore × Nat :=
  afterStore1.1.store 200 (symbolAt 4112) (fixed 2 (by decide))

/-- Third `store` of the run: the vector is full again and reallocates, here
to address 300, with room for four. -/
def afterStore3 : SpecializationStorage FixedScore × Nat :=
  afterStore2.1.store 300 (symbolAt 4128) (fixed 3 (by decide))

/-- Fourth `store` of the run: there is room, the vector does not
reallocate. -/
def afterStore4 : SpecializationStorage FixedScore × Nat :=
  afterStore3.1.store 0 (symbolAt 4144) (fixed 4 (by decide))

/-- The run goes on with `evict` of the reference the third `store`
returned. -/
def afterEvict3 : Bool × SpecializationStorage FixedScore :=
  afterStore4.1.evict afterStore3.2

/-- The run goes on with a fifth `store`: there is room again, the vector does
not reallocate. -/
def afterStore5 : SpecializationStorage FixedScore × Nat :=
  afterEvict3.2.store 0 (symbolAt 4160) (fixed 5 (by decide))

end BmJit

/-!
# The glob matchers of `glob-jit/glob_pattern.cpp`

A `const char*` is the list of the characters in front of the terminator; an
index reads the terminator behind them. The indices `i`, `j`, `k` are `int`s
that start at `0` and are only incremented: they are natural numbers up to
`INT_MAX`, and a call whose next increment would overflow has undefined
behaviour, which is the result `none`.
-/

namespace GlobJit

/-- The terminator of a C string. -/
def NUL : Char :=
  Char.ofNat 0

/-- The character a `const char*` holds at index `i`: the characters of the
string, then the terminator. -/
def charAt (s : List Char) (i : Nat) : Char :=
  s.getD i NUL

/-- The largest value of an `int`, `2^31 - 1`. -/
def INT_MAX : Nat :=
  2147483647

/-- The loop `for (int k = j; testString[k] != 0; ++k)` of the case `*`, from
`k` on: `true` as soon as `body k` holds, `false` when the terminator is
reached. The result is `none` when the behaviour is undefined: `body k` is, or
`++k` overflows `int`. -/
def starLoop (testString : List Char) (body : Nat → Option Bool) (k : Nat) : Option Bool :=
  if h : charAt testString k ≠ NUL then
    if body k = some true then some true
    else if body k = some false then
      if k < INT_MAX then starLoop testString body (k + 1) else none
    else none
  else some false
termination_by testString.length - k
decreasing_by
  have hlt : k < testString.length := by
    by_contra hge
    exact h (by simp [charAt, List.getD, List.getElem?_eq_none (Nat.le_of_not_lt hge)])
  omega

/-- The function `matchGenericHelper`. The indices are `int`s that start at
`0` and are only incremented; the result is `none` when the behaviour is
undefined because `i + 1`, `j + 1` or `++k` overflows `int`. The operator `&&`
evaluates its right side, and with it `i + 1` and `j + 1`, only when its left
side holds. -/
def matchGenericHelper (pattern testString : List Char) (i j : Nat) : Option Bool :=
  if h : charAt pattern i = NUL then
    some (charAt testString j == NUL)
  else if charAt pattern i = '?' then
    if charAt testString j ≠ NUL then
      if i < INT_MAX ∧ j < INT_MAX then matchGenericHelper pattern testString (i + 1) (j + 1)
      else none
    else some false
  else if charAt pattern i = '*' then
    starLoop testString
      (fun k => if i < INT_MAX then matchGenericHelper pattern testString (i + 1) k else none) j
  else
    if charAt testString j ≠ NUL ∧ charAt pattern i = charAt testString j then
      if i < INT_MAX ∧ j < INT_MAX then matchGenericHelper pattern testString (i + 1) (j + 1)
      else none
    else some false
termination_by pattern.length - i
decreasing_by
  all_goals
    have hlt : i < pattern.length := by
      by_contra hge
      exact h (by simp [charAt, List.getD, List.getElem?_eq_none (Nat.le_of_not_lt hge)])
    omega

/-- The function `matchGeneric`. -/
def matchGeneric (pattern testString : List Char) : Option Bool :=
  matchGenericHelper pattern testString 0 0

/-- The local array `char pattern[7] = "a*b*c?"` of `matchFixedHelper`. -/
def fixedPattern : List Char :=
  ['a', '*', 'b', '*', 'c', '?']

/-- The function `matchFixedHelper`, with the same reading of `int` and `&&`
as `matchGenericHelper`. -/
def matchFixedHelper (testString : List Char) (i j : Nat) : Option Bool :=
  if h : charAt fixedPattern i = NUL then
    some (charAt testString j == NUL)
  else if charAt fixedPattern i = '?' then
    if charAt testString j ≠ NUL then
      if i < INT_MAX ∧ j < INT_MAX then matchFixedHelper testString (i + 1) (j + 1)
      else none
    else some false
  else if charAt fixedPattern i = '*' then
    starLoop testString
      (fun k => if i < INT_MAX then matchFixedHelper testString (i + 1) k else none) j
  else
    if charAt testString j ≠ NUL ∧ charAt fixedPattern i = charAt testString j then
      if i < INT_MAX ∧ j < INT_MAX then matchFixedHelper testString (i + 1) (j + 1)
      else none
    else some false
termination_by fixedPattern.length - i
decreasing_by
  all_goals
    have hlt : i < fixedPattern.length := by
      by_contra hge
      exact h (by simp [charAt, List.getD, List.getElem?_eq_none (Nat.le_of_not_lt hge)])
    omega

/-- The function `matchFixed`. -/
def matchFixed (testString : List Char) : Option Bool :=
  matchFixedHelper testString 0 0

/-- The glob language of a pattern, as the specification words it, to compare
`matchGeneric` with: the empty pattern matches the empty string only; `?`
matches exactly one arbitrary character; `*` matches any sequence of zero or
more characters; every other character is a literal and matches itself. -/
def GlobLanguage : List Char → List Char → Prop
  | [], s => s = []
  | c :: rest, s =>
    if c = '?' then ∃ (ch : Char) (t : List Char), s = ch :: t ∧ GlobLanguage rest t
    else if c = '*' then ∃ x t : List Char, s = x ++ t ∧ GlobLanguage rest t
    else ∃ t : List Char, s = c :: t ∧ GlobLanguage rest t

/-- A test string of 2147483653 characters `a`, more than `INT_MAX`. -/
def longAs : List Char :=
  List.replicate 2147483653 'a'

end GlobJit

/-! # Theorems -/

namespace BmJit

namespace SpecializationStorage

variable {P : Type}

/-! ## Lemmas on the vector model -/

theorem deref_addr {α : Type} (v : vector α) (i : Nat) (hi : i < v.elems.length) :
    v.deref (v.addr i) = some v.elems[i] := by
  simp [vector.deref, vector.addr, hi]

/-- A list splits at every position into the part before, the element
there and the part behind. -/
theorem split_at {α : Type} (l : List α) (i : Nat) (hi : i < l.length) :
    l = l.take i ++ l[i] :: l.drop (i + 1) := by
  rw [← List.drop_eq_getElem_cons hi, List.take_append_drop]

theorem mem_take_getElem {α : Type} (l : List α) (i : Nat) (x : α) (hx : x ∈ l.take i) :
    ∃ (j : Nat) (hj : j < l.length), j < i ∧ l[j] = x := by
  obtain ⟨j, hj, rfl⟩ := List.mem_iff_getElem.mp hx
  have hj2 : j < i ∧ j < l.length := by simpa [List.length_take] using hj
  exact ⟨j, hj2.2, hj2.1, by simp [List.getElem_take]⟩

/-! ## `find_first` -/

theorem find_first_loop_none [RuntimeParams P] (data : Nat) (b : P)
    (l : List (FunctionSpecialization P)) (k : Nat)
    (h : ∀ e ∈ l, e.matchWith b = Binding.mismatch) :
    find_first_loop data b l k = (none, Binding.mismatch) := by
  induction l generalizing k with
  | nil => rfl
  | cons x rest ih =>
    have hx : x.matchWith b = Binding.mismatch := h x (List.mem_cons_self _ _)
    simp only [find_first_loop, hx, ne_eq, not_true_eq_false, if_false]
    exact ih (k + 1) (fun e he => h e (List.mem_cons_of_mem _ he))

theorem find_first_loop_append [RuntimeParams P] (data : Nat) (b : P)
    (xs : List (FunctionSpecialization P)) (e : FunctionSpecialization P)
    (ys : List (FunctionSpecialization P)) (k : Nat)
    (hxs : ∀ x ∈ xs, x.matchWith b = Binding.mismatch)
    (he : e.matchWith b ≠ Binding.mismatch) :
    find_first_loop data b (xs ++ e :: ys) k = (some (data + (k + xs.length)), e.matchWith b) := by
  induction xs generalizing k with
  | nil => simp [find_first_loop, he]
  | cons x rest ih =>
    have hx : x.matchWith b = Binding.mismatch := hxs x (List.mem_cons_self _ _)
    have ih2 := ih (k + 1) (fun y hy => hxs y (List.mem_cons_of_mem _ hy))
    rw [List.cons_append]
    simp only [find_first_loop, hx, ne_eq, not_true_eq_false, if_false]
    rw [ih2, List.length_cons]
    congr 3
    omega

/-- C1. `find` with `First` returns the entry at the smallest position whose
`matchWith` result is not `mismatch`, with that result as the score; when every
entry mismatches (the empty repository included) it returns `nullptr` and the
score `mismatch`. -/
theorem C1_find_first_smallest_index [RuntimeParams P] (self : SpecializationStorage P)
    (b : P) (score : match_t) :
    (∀ (i : Nat) (hi : i < self._storage.elems.length),
        self._storage.elems[i].matchWith b ≠ Binding.mismatch →
        (∀ (j : Nat) (hj : j < self._storage.elems.length), j < i →
          self._storage.elems[j].matchWith b = Binding.mismatch) →
        self.find b score FindStrategy.First
            = (some (self._storage.addr i), self._storage.elems[i].matchWith b)
          ∧ self._storage.deref (self._storage.addr i) = some self._storage.elems[i])
    ∧ ((∀ e ∈ self._storage.elems, e.matchWith b = Binding.mismatch) →
        self.find b score FindStrategy.First = (none, Binding.mismatch)) := by
  refine ⟨fun i hi hne hlt => ⟨?_, deref_addr _ i hi⟩, fun h => ?_⟩
  · have hall : ∀ x ∈ self._storage.elems.take i, x.matchWith b = Binding.mismatch := by
      intro x hx
      obtain ⟨j, hj, hji, rfl⟩ := mem_take_getElem _ i x hx
      exact hlt j hj hji
    have hsplit := split_at self._storage.elems i hi
    have := find_first_loop_append self._storage.data b _ _
      (self._storage.elems.drop (i + 1)) 0 hall hne
    rw [← hsplit] at this
    simp only [find, find_first, this, vector.addr]
    simp [List.length_take, Nat.min_eq_left (Nat.le_of_lt hi)]
  · exact find_first_loop_none _ b _ 0 h

/-! ## `find_best` -/

theorem val_le_match (s : match_t) : s.val ≤ Binding.match_.val := s.property.2

theorem mismatch_le_val (s : match_t) : Binding.mismatch.val ≤ s.val := s.property.1

theorem eq_mismatch_of_le (s : match_t) (h : s.val ≤ Binding.mismatch.val) :
    s = Binding.mismatch :=
  Subtype.ext (Int.le_antisymm h (mismatch_le_val s))

theorem ne_match_of_lt (s t : match_t) (h : s.val < t.val) : s ≠ Binding.match_ := by
  intro hs
  have := val_le_match t
  rw [hs] at h
  omega

/-- The final score of the `find_best` loop is at least the score it started
with and at least the score of every entry it was given. -/
theorem find_best_loop_score_ge [RuntimeParams P] (data : Nat) (b : P)
    (l : List (FunctionSpecialization P)) (i : Nat) (best : Option Nat) (score : match_t) :
    score.val ≤ (find_best_loop data b l i best score).2.val
      ∧ ∀ e ∈ l, (e.matchWith b).val ≤ (find_best_loop data b l i best score).2.val := by
  induction l generalizing i best score with
  | nil => simp [find_best_loop]
  | cons x rest ih =>
    by_cases hm : x.matchWith b = Binding.match_
    · simp only [find_best_loop, hm, if_true]
      refine ⟨val_le_match score, fun e _ => val_le_match _⟩
    · by_cases hgt : (x.matchWith b).val > score.val
      · simp only [find_best_loop, hm, if_false, hgt, if_true]
        obtain ⟨h1, h2⟩ := ih (i + 1) (some (data + i)) (x.matchWith b)
        refine ⟨by omega, fun e he => ?_⟩
        rcases List.mem_cons.mp he with rfl | he
        · exact h1
        · exact h2 e he
      · simp only [find_best_loop, hm, if_false, hgt]
        obtain ⟨h1, h2⟩ := ih (i + 1) best score
        refine ⟨h1, fun e he => ?_⟩
        rcases List.mem_cons.mp he with rfl | he
        · omega
        · exact h2 e he

/-- The `find_best` loop leaves `best` and `score` alone when no entry scores
above `score` and `score` is not `match`. -/
theorem find_best_loop_stable [RuntimeParams P] (data : Nat) (b : P)
    (l : List (FunctionSpecialization P)) (i : Nat) (best : Option Nat) (score : match_t)
    (hs : score ≠ Binding.match_) (h : ∀ e ∈ l, (e.matchWith b).val ≤ score.val) :
    find_best_loop data b l i best score = (best, score) := by
  induction l generalizing i with
  | nil => rfl
  | cons x rest ih =>
    have hx := h x (List.mem_cons_self _ _)
    have hm : x.matchWith b ≠ Binding.match_ := by
      intro hmm
      apply hs
      apply Subtype.ext
      have := val_le_match score
      rw [hmm] at hx
      omega
    have hgt : ¬ (x.matchWith b).val > score.val := by omega
    simp only [find_best_loop, hm, if_false, hgt]
    exact ih (i + 1) (fun e he => h e (List.mem_cons_of_mem _ he))

/-- The `find_best` loop returns the earliest entry with the highest score,
when that score is above the score the loop started with. -/
theorem find_best_loop_append [RuntimeParams P] (data : Nat) (b : P)
    (xs : List (FunctionSpecialization P)) (e : FunctionSpecialization P)
    (ys : List (FunctionSpecialization P)) (i : Nat) (best : Option Nat) (score : match_t)
    (hs : score.val < (e.matchWith b).val)
    (hxs : ∀ x ∈ xs, (x.matchWith b).val < (e.matchWith b).val)
    (hys : ∀ y ∈ ys, (y.matchWith b).val ≤ (e.matchWith b).val) :
    find_best_loop data b (xs ++ e :: ys) i best score
      = (some (data + (i + xs.length)), e.matchWith b) := by
  induction xs generalizing i best score with
  | nil =>
    rw [List.nil_append]
    by_cases hm : e.matchWith b = Binding.match_
    · simp [find_best_loop, hm]
    · have hgt : (e.matchWith b).val > score.val := hs
      simp only [find_best_loop, hm, if_false, hgt, if_true]
      rw [find_best_loop_stable data b ys (i + 1) _ _ hm hys]
      simp
  | cons x rest ih =>
    have hx := hxs x (List.mem_cons_self _ _)
    have hm : x.matchWith b ≠ Binding.match_ := ne_match_of_lt _ _ hx
    have hrest : ∀ y ∈ rest, (y.matchWith b).val < (e.matchWith b).val :=
      fun y hy => hxs y (List.mem_cons_of_mem _ hy)
    rw [List.cons_append]
    by_cases hgt : (x.matchWith b).val > score.val
    · simp only [find_best_loop, hm, if_false, hgt, if_true]
      rw [ih (i + 1) (some (data + i)) (x.matchWith b) hx hrest, List.length_cons]
      congr 3
      omega
    · simp only [find_best_loop, hm, if_false, hgt]
      rw [ih (i + 1) best score hs hrest, List.length_cons]
      congr 3
      omega

/-- The `find_best` loop returns at once at the first entry that scores
`match`. -/
theorem find_best_loop_match [RuntimeParams P] (data : Nat) (b : P)
    (xs : List (FunctionSpecialization P)) (e : FunctionSpecialization P)
    (ys : List (FunctionSpecialization P)) (i : Nat) (best : Option Nat) (score : match_t)
    (hxs : ∀ x ∈ xs, x.matchWith b ≠ Binding.match_)
    (he : e.matchWith b = Binding.match_) :
    find_best_loop data b (xs ++ e :: ys) i best score
      = (some (data + (i + xs.length)), Binding.match_) := by
  induction xs generalizing i best score with
  | nil => simp [find_best_loop, he]
  | cons x rest ih =>
    have hm : x.matchWith b ≠ Binding.match_ := hxs x (List.mem_cons_self _ _)
    have hrest : ∀ y ∈ rest, y.matchWith b ≠ Binding.match_ :=
      fun y hy => hxs y (List.mem_cons_of_mem _ hy)
    rw [List.cons_append]
    by_cases hgt : (x.matchWith b).val > score.val
    · simp only [find_best_loop, hm, if_false, hgt, if_true]
      rw [ih (i + 1) _ _ hrest, List.length_cons]
      congr 3
      omega
    · simp only [find_best_loop, hm, if_false, hgt]
      rw [ih (i + 1) _ _ hrest, List.length_cons]
      congr 3
      omega

/-- The `find_best` loop either keeps `best` and `score`, no entry scoring
above `score`, or returns one of the entries with that entry's score, which is
not `mismatch`. -/
theorem find_best_loop_cases [RuntimeParams P] (data : Nat) (b : P)
    (l : List (FunctionSpecialization P)) (i : Nat) (best : Option Nat) (score : match_t) :
    (find_best_loop data b l i best score = (best, score)
        ∧ ∀ e ∈ l, (e.matchWith b).val ≤ score.val)
      ∨ ∃ (j : Nat) (hj : j < l.length),
          find_best_loop data b l i best score = (some (data + (i + j)), l[j].matchWith b)
            ∧ l[j].matchWith b ≠ Binding.mismatch := by
  induction l generalizing i best score with
  | nil => left; simp [find_best_loop]
  | cons x rest ih =>
    by_cases hm : x.matchWith b = Binding.match_
    · right
      refine ⟨0, by simp, ?_, ?_⟩
      · simp [find_best_loop, hm]
      · simp only [List.getElem_cons_zero, hm]; decide
    · by_cases hgt : (x.matchWith b).val > score.val
      · right
        simp only [find_best_loop, hm, if_false, hgt, if_true]
        rcases ih (i + 1) (some (data + i)) (x.matchWith b) with ⟨h1, _⟩ | ⟨j, hj, h1, h2⟩
        · refine ⟨0, by simp, ?_, ?_⟩
          · simpa using h1
          · intro hmis
            have := mismatch_le_val score
            simp only [List.getElem_cons_zero] at hmis
            rw [hmis] at hgt
            omega
        · refine ⟨j + 1, by simpa using hj, ?_, ?_⟩
          · rw [h1]; simp only [List.getElem_cons_succ]
            congr 3; omega
          · simpa using h2
      · simp only [find_best_loop, hm, if_false, hgt]
        rcases ih (i + 1) best score with ⟨h1, h2⟩ | ⟨j, hj, h1, h2⟩
        · left
          refine ⟨h1, fun e he => ?_⟩
          rcases List.mem_cons.mp he with rfl | he
          · omega
          · exact h2 e he
        · right
          refine ⟨j + 1, by simpa using hj, ?_, ?_⟩
          · rw [h1]; simp only [List.getElem_cons_succ]
            congr 3; omega
          · simpa using h2

/-- C2. For a non-empty repository the score `find` with `Best` writes is at
least the `matchWith` result of every entry. -/
theorem C2_find_best_score_ge_every_entry [RuntimeParams P] (self : SpecializationStorage P)
    (b : P) (score : match_t) (_hne : self._storage.elems ≠ []) :
    ∀ e ∈ self._storage.elems,
      (e.matchWith b).val ≤ (self.find b score FindStrategy.Best).2.val :=
  (find_best_loop_score_ge self._storage.data b self._storage.elems 0 none Binding.mismatch).2

theorem C2_find_best_score_ge_every_entry_witness :
    sample599._storage.elems ≠ []
      ∧ scored 9 (by decide) ∈ sample599._storage.elems
      ∧ ((scored 9 (by decide)).matchWith request).val
          ≤ (sample599.find request Binding.mismatch FindStrategy.Best).2.val :=
  ⟨by decide, by decide,
    C2_find_best_score_ge_every_entry sample599 request Binding.mismatch (by decide)
      (scored 9 (by decide)) (by decide)⟩

/-- The earliest position at which a list of scores reaches its highest
value. -/
theorem exists_earliest_maximum [RuntimeParams P] (b : P)
    (l : List (FunctionSpecialization P)) (hne : l ≠ []) :
    ∃ (i : Nat) (hi : i < l.length),
      (∀ (j : Nat) (hj : j < l.length), (l[j].matchWith b).val ≤ (l[i].matchWith b).val)
        ∧ ∀ (j : Nat) (hj : j < l.length), l[j].matchWith b = l[i].matchWith b → i ≤ j := by
  induction l with
  | nil => exact absurd rfl hne
  | cons x rest ih =>
    by_cases hrest : rest = []
    · subst hrest
      refine ⟨0, by simp, fun j hj => ?_, fun j _ _ => Nat.zero_le j⟩
      have hj0 : j = 0 := by simpa using hj
      subst hj0
      exact Int.le_refl _
    · obtain ⟨i, hi, hmax, hmin⟩ := ih hrest
      by_cases hx : (rest[i].matchWith b).val ≤ (x.matchWith b).val
      · refine ⟨0, by simp, fun j hj => ?_, fun j _ _ => Nat.zero_le j⟩
        cases j with
        | zero => exact Int.le_refl _
        | succ j =>
          have hj2 : j < rest.length := by simpa using hj
          have := hmax j hj2
          simp only [List.getElem_cons_succ, List.getElem_cons_zero]
          omega
      · refine ⟨i + 1, by simpa using hi, fun j hj => ?_, fun j hj hje => ?_⟩
        · cases j with
          | zero =>
            simp only [List.getElem_cons_succ, List.getElem_cons_zero]
            omega
          | succ j =>
            have hj2 : j < rest.length := by simpa using hj
            simpa using hmax j hj2
        · cases j with
          | zero =>
            simp only [List.getElem_cons_succ, List.getElem_cons_zero] at hje
            rw [hje] at hx
            exact absurd (Int.le_refl _) hx
          | succ j =>
            have hj2 : j < rest.length := by simpa using hj
            simp only [List.getElem_cons_succ] at hje
            have := hmin j hj2 hje
            omega

/-- C3. When some entry does not mismatch, `find` with `Best` returns the
entry at the smallest position among those whose score is the highest of the
repository, and the score written is that highest score. -/
theorem C3_find_best_earliest_maximum [RuntimeParams P] (self : SpecializationStorage P)
    (b : P) (score : match_t)
    (hex : ∃ e ∈ self._storage.elems, e.matchWith b ≠ Binding.mismatch) :
    ∃ (i : Nat) (hi : i < self._storage.elems.length),
      (∀ (j : Nat) (hj : j < self._storage.elems.length),
          (self._storage.elems[j].matchWith b).val ≤ (self._storage.elems[i].matchWith b).val)
        ∧ (∀ (j : Nat) (hj : j < self._storage.elems.length),
            self._storage.elems[j].matchWith b = self._storage.elems[i].matchWith b → i ≤ j)
        ∧ self.find b score FindStrategy.Best
            = (some (self._storage.addr i), self._storage.elems[i].matchWith b)
        ∧ self._storage.deref (self._storage.addr i) = some self._storage.elems[i] := by
  obtain ⟨e, hemem, hemis⟩ := hex
  have hne : self._storage.elems ≠ [] := List.ne_nil_of_mem hemem
  obtain ⟨i, hi, hmax, hmin⟩ := exists_earliest_maximum b self._storage.elems hne
  refine ⟨i, hi, hmax, hmin, ?_, deref_addr _ i hi⟩
  have hsplit := split_at self._storage.elems i hi
  have hgt : Binding.mismatch.val < (self._storage.elems[i].matchWith b).val := by
    obtain ⟨k, hk, rfl⟩ := List.mem_iff_getElem.mp hemem
    have h1 := hmax k hk
    have h2 := mismatch_le_val (self._storage.elems[k].matchWith b)
    rcases lt_or_eq_of_le h2 with h3 | h3
    · omega
    · exact absurd (Subtype.ext h3.symm) hemis
  have hxs : ∀ x ∈ self._storage.elems.take i,
      (x.matchWith b).val < (self._storage.elems[i].matchWith b).val := by
    intro x hx
    obtain ⟨j, hj, hji, rfl⟩ := mem_take_getElem _ i x hx
    rcases lt_or_eq_of_le (hmax j hj) with h3 | h3
    · exact h3
    · have := hmin j hj (Subtype.ext h3)
      omega
  have hys : ∀ y ∈ self._storage.elems.drop (i + 1),
      (y.matchWith b).val ≤ (self._storage.elems[i].matchWith b).val := by
    intro y hy
    obtain ⟨k, hk, rfl⟩ := List.mem_iff_getElem.mp (List.mem_of_mem_drop hy)
    exact hmax k hk
  have := find_best_loop_append self._storage.data b _ _ _ 0 none Binding.mismatch hgt hxs hys
  rw [← hsplit] at this
  simp only [find, find_best, this, vector.addr]
  simp [List.length_take, Nat.min_eq_left (Nat.le_of_lt hi)]

theorem C3_find_best_earliest_maximum_witness :
    (∃ e ∈ sample599._storage.elems, e.matchWith request ≠ Binding.mismatch)
      ∧ (∃ (i : Nat) (hi : i < sample599._storage.elems.length),
          (∀ (j : Nat) (hj : j < sample599._storage.elems.length),
            (sample599._storage.elems[j].matchWith request).val
              ≤ (sample599._storage.elems[i].matchWith request).val)
          ∧ (∀ (j : Nat) (hj : j < sample599._storage.elems.length),
              sample599._storage.elems[j].matchWith request
                = sample599._storage.elems[i].matchWith request → i ≤ j)
          ∧ sample599.find request Binding.match_ FindStrategy.Best
              = (some (sample599._storage.addr i), sample599._storage.elems[i].matchWith request)
          ∧ sample599._storage.deref (sample599._storage.addr i)
              = some sample599._storage.elems[i])
      ∧ sample599.find request Binding.match_ FindStrategy.Best = (some 101, ⟨9, by decide⟩) :=
  ⟨⟨scored 5 (by decide), by decide, by decide⟩,
    C3_find_best_earliest_maximum sample599 request Binding.match_
      ⟨scored 5 (by decide), by decide, by decide⟩,
    by decide⟩

/-- C4. In a repository `xs ++ [e] ++ ys` where `e` scores `match` and no
entry of `xs` does, `find` with `Best` returns `e` with the score `match`,
whatever the entries `ys` behind it are. -/
theorem C4_find_best_first_perfect_match [RuntimeParams P] (data capacity : Nat)
    (xs : List (FunctionSpecialization P)) (e : FunctionSpecialization P) (b : P)
    (score : match_t)
    (hxs : ∀ x ∈ xs, x.matchWith b ≠ Binding.match_)
    (he : e.matchWith b = Binding.match_) (ys : List (FunctionSpecialization P)) :
    find { _storage := { data := data, capacity := capacity, elems := xs ++ [e] ++ ys } }
        b score FindStrategy.Best
      = (some (data + xs.length), Binding.match_)
    ∧ vector.deref { data := data, capacity := capacity, elems := xs ++ [e] ++ ys }
        (data + xs.length) = some e := by
  constructor
  · have := find_best_loop_match data b xs e ys 0 none Binding.mismatch hxs he
    simpa [find, find_best] using this
  · simp [vector.deref, List.getElem_append_right]

theorem C4_find_best_first_perfect_match_witness :
    (∀ x ∈ [scored 5 (by decide)], x.matchWith request ≠ Binding.match_)
      ∧ (scored 2147483647 (by decide)).matchWith request = Binding.match_
      ∧ sampleMatch.find request Binding.mismatch FindStrategy.Best
          = (some 201, Binding.match_)
      ∧ sampleMatch._storage.deref 201 = some (scored 2147483647 (by decide)) :=
  ⟨by decide, by decide,
    C4_find_best_first_perfect_match 200 4 [scored 5 (by decide)]
      (scored 2147483647 (by decide)) request Binding.mismatch (by decide) (by decide)
      [scored 9 (by decide)]⟩

/-- C5. `find` with `Best` returns `nullptr` exactly when every entry
mismatches (the empty repository included), and then the score is `mismatch`;
otherwise it returns an entry of the repository with that entry's own score. -/
theorem C5_find_best_null_iff_all_mismatch [RuntimeParams P] (self : SpecializationStorage P)
    (b : P) (score : match_t) :
    ((self.find b score FindStrategy.Best).1 = none
        ↔ ∀ e ∈ self._storage.elems, e.matchWith b = Binding.mismatch)
    ∧ ((self.find b score FindStrategy.Best).1 = none →
        (self.find b score FindStrategy.Best).2 = Binding.mismatch)
    ∧ (∀ p : Nat, (self.find b score FindStrategy.Best).1 = some p →
        ∃ (i : Nat) (hi : i < self._storage.elems.length),
          p = self._storage.addr i
            ∧ self._storage.deref p = some self._storage.elems[i]
            ∧ (self.find b score FindStrategy.Best).2 = self._storage.elems[i].matchWith b) := by
  have hcases := find_best_loop_cases self._storage.data b self._storage.elems 0 none
    Binding.mismatch
  simp only [find, find_best]
  rcases hcases with ⟨h1, h2⟩ | ⟨j, hj, h1, h2⟩
  · rw [h1]
    refine ⟨⟨fun _ e he => eq_mismatch_of_le _ (h2 e he), fun _ => rfl⟩, fun _ => rfl, ?_⟩
    intro p hp
    exact absurd hp (by simp)
  · rw [h1]
    refine ⟨⟨fun h => absurd h (by simp), fun h => ?_⟩, fun h => absurd h (by simp), ?_⟩
    · exact absurd (h _ (List.getElem_mem _)) h2
    · intro p hp
      have hp2 : p = self._storage.data + (0 + j) := by simpa using hp.symm
      refine ⟨j, hj, ?_, ?_, rfl⟩
      · simp [hp2, vector.addr]
      · rw [hp2]
        simpa [vector.addr] using deref_addr self._storage j hj

/-! ## `find_last` -/

theorem find_last_loop_none [RuntimeParams P] (data : Nat) (b : P)
    (l : List (FunctionSpecialization P))
    (h : ∀ e ∈ l, e.matchWith b = Binding.mismatch) :
    find_last_loop data b l = (none, Binding.mismatch) := by
  induction l with
  | nil => rfl
  | cons x rest ih =>
    have hx : x.matchWith b = Binding.mismatch := h x (List.mem_cons_self _ _)
    simp only [find_last_loop, hx, ne_eq, not_true_eq_false, if_false]
    exact ih (fun e he => h e (List.mem_cons_of_mem _ he))

theorem find_last_loop_append [RuntimeParams P] (data : Nat) (b : P)
    (xs : List (FunctionSpecialization P)) (e : FunctionSpecialization P)
    (ys : List (FunctionSpecialization P))
    (hxs : ∀ x ∈ xs, x.matchWith b = Binding.mismatch)
    (he : e.matchWith b ≠ Binding.mismatch) :
    find_last_loop data b (xs ++ e :: ys) = (some (data + ys.length), e.matchWith b) := by
  induction xs with
  | nil => simp [find_last_loop, he]
  | cons x rest ih =>
    have hx : x.matchWith b = Binding.mismatch := hxs x (List.mem_cons_self _ _)
    have ih2 := ih (fun y hy => hxs y (List.mem_cons_of_mem _ hy))
    rw [List.cons_append]
    simp only [find_last_loop, hx, ne_eq, not_true_eq_false, if_false]
    exact ih2

/-- On the same list of entries the loop of `find_first` and the loop of
`find_last` both miss, or they hit the same entry with the same score, which
`find_last` reports at the mirrored position. -/
theorem find_first_last_mirror [RuntimeParams P] (data : Nat) (b : P)
    (l : List (FunctionSpecialization P)) (k : Nat) :
    (find_first_loop data b l k = (none, Binding.mismatch)
        ∧ find_last_loop data b l = (none, Binding.mismatch)
        ∧ ∀ e ∈ l, e.matchWith b = Binding.mismatch)
      ∨ ∃ (j : Nat) (hj : j < l.length),
          find_first_loop data b l k = (some (data + (k + j)), l[j].matchWith b)
            ∧ find_last_loop data b l = (some (data + (l.length - 1 - j)), l[j].matchWith b)
            ∧ l[j].matchWith b ≠ Binding.mismatch
            ∧ ∀ (m : Nat) (hm : m < l.length), m < j → l[m].matchWith b = Binding.mismatch := by
  induction l generalizing k with
  | nil => left; exact ⟨rfl, rfl, by simp⟩
  | cons x rest ih =>
    by_cases hx : x.matchWith b = Binding.mismatch
    · simp only [find_first_loop, find_last_loop, hx, ne_eq, not_true_eq_false, if_false]
      rcases ih (k + 1) with ⟨h1, h2, h3⟩ | ⟨j, hj, h1, h2, h3, h4⟩
      · left
        refine ⟨h1, h2, fun e he => ?_⟩
        rcases List.mem_cons.mp he with rfl | he
        · exact hx
        · exact h3 e he
      · right
        refine ⟨j + 1, by simpa using hj, ?_, ?_, by simpa using h3, fun m hm hmj => ?_⟩
        · rw [h1]; simp only [List.getElem_cons_succ]
          congr 3; omega
        · rw [h2]; simp only [List.getElem_cons_succ, List.length_cons]
          congr 3; omega
        · cases m with
          | zero => simpa using hx
          | succ m =>
            have hm2 : m < rest.length := by simpa using hm
            simpa using h4 m hm2 (by omega)
    · right
      refine ⟨0, by simp, ?_, ?_, by simpa using hx, fun m _ hm0 => absurd hm0 (Nat.not_lt_zero m)⟩
      · simp [find_first_loop, hx]
      · simp [find_last_loop, hx]

/-- C6. `find` with `Last` returns the entry at the largest position whose
`matchWith` result is not `mismatch`, with that entry's score, or `nullptr`
and `mismatch` when there is none; this is the entry and the score `find` with
`First` returns on the repository that holds the entries in reversed order. -/
theorem C6_find_last_mirrors_find_first [RuntimeParams P] (self : SpecializationStorage P)
    (b : P) (score : match_t) :
    (∀ (i : Nat) (hi : i < self._storage.elems.length),
        self._storage.elems[i].matchWith b ≠ Binding.mismatch →
        (∀ (j : Nat) (hj : j < self._storage.elems.length), i < j →
          self._storage.elems[j].matchWith b = Binding.mismatch) →
        self.find b score FindStrategy.Last
            = (some (self._storage.addr i), self._storage.elems[i].matchWith b)
          ∧ self._storage.deref (self._storage.addr i) = some self._storage.elems[i])
    ∧ ((∀ e ∈ self._storage.elems, e.matchWith b = Binding.mismatch) →
        self.find b score FindStrategy.Last = (none, Binding.mismatch))
    ∧ (self.find b score FindStrategy.Last).2
        = (self.reversed.find b score FindStrategy.First).2
    ∧ (self.find b score FindStrategy.Last).1.bind self._storage.deref
        = (self.reversed.find b score FindStrategy.First).1.bind self.reversed._storage.deref
    ∧ (self.find b score FindStrategy.Last).1
        = (self.reversed.find b score FindStrategy.First).1.map
            (fun p => self._storage.addr
              (self._storage.elems.length - 1 - (p - self.reversed._storage.data))) := by
  refine ⟨fun i hi hne hgt => ⟨?_, deref_addr _ i hi⟩, fun h => ?_, ?_⟩
  · have hsplit := split_at self._storage.elems i hi
    have hrev : self._storage.elems.reverse
        = (self._storage.elems.drop (i + 1)).reverse
          ++ self._storage.elems[i] :: (self._storage.elems.take i).reverse := by
      conv_lhs => rw [hsplit]
      simp
    have hall : ∀ x ∈ (self._storage.elems.drop (i + 1)).reverse,
        x.matchWith b = Binding.mismatch := by
      intro x hx
      rw [List.mem_reverse] at hx
      obtain ⟨m, hm, rfl⟩ := List.mem_iff_getElem.mp hx
      rw [List.getElem_drop]
      exact hgt _ _ (by omega)
    simp only [find, find_last, hrev]
    rw [find_last_loop_append _ b _ _ _ hall hne]
    simp [vector.addr, List.length_take, Nat.min_eq_left (Nat.le_of_lt hi)]
  · simp only [find, find_last]
    exact find_last_loop_none _ b _ (fun e he => h e (List.mem_reverse.mp he))
  · simp only [find, find_last, find_first, reversed]
    rcases find_first_last_mirror self._storage.data b self._storage.elems.reverse 0 with
      ⟨h1, h2, _⟩ | ⟨j, hj, h1, h2, _, _⟩
    · rw [h1, h2]; simp
    · rw [h1, h2]
      have hj2 : j < self._storage.elems.length := by simpa using hj
      refine ⟨rfl, ?_, ?_⟩
      · simp only [Option.some_bind, vector.deref, List.length_reverse]
        simp only [Nat.le_add_right, if_true, Nat.add_sub_cancel_left, Nat.zero_add]
        rw [List.getElem?_reverse hj2]
      · simp [vector.addr]

/-- C7. On an empty repository `find` returns `nullptr` and sets the score to
`mismatch` under every strategy, whatever the score held before the call. -/
theorem C7_find_on_empty_repository [RuntimeParams P] (data capacity : Nat) (b : P)
    (score : match_t) (strategy : FindStrategy) :
    find (P := P) { _storage := { data := data, capacity := capacity, elems := [] } }
        b score strategy = (none, Binding.mismatch)
      ∧ (empty : SpecializationStorage P).find b score strategy = (none, Binding.mismatch) := by
  cases strategy <;> exact ⟨rfl, rfl⟩

/-! ## `evict` and `store` -/

/-- A pointer `find` returns points at one of the entries. -/
theorem find_some_in_range [RuntimeParams P] (self : SpecializationStorage P) (b : P)
    (score : match_t) (strategy : FindStrategy) (p : Nat)
    (hp : (self.find b score strategy).1 = some p) :
    ∃ k : Nat, k < self._storage.elems.length ∧ p = self._storage.addr k := by
  cases strategy with
  | First =>
    simp only [find, find_first] at hp
    rcases find_first_last_mirror self._storage.data b self._storage.elems 0 with
      ⟨h1, _, _⟩ | ⟨j, hj, h1, _, _, _⟩
    · rw [h1] at hp; exact absurd hp (by simp)
    · rw [h1] at hp
      exact ⟨j, hj, by simpa [vector.addr] using hp.symm⟩
  | Last =>
    simp only [find, find_last] at hp
    rcases find_first_last_mirror self._storage.data b self._storage.elems.reverse 0 with
      ⟨_, h2, _⟩ | ⟨j, hj, _, h2, _, _⟩
    · rw [h2] at hp; exact absurd hp (by simp)
    · rw [h2] at hp
      have hj2 : j < self._storage.elems.length := by simpa using hj
      refine ⟨self._storage.elems.length - 1 - j, by omega, ?_⟩
      simpa [vector.addr] using hp.symm
  | Best =>
    simp only [find, find_best] at hp
    rcases find_best_loop_cases self._storage.data b self._storage.elems 0 none
      Binding.mismatch with ⟨h1, _⟩ | ⟨j, hj, h1, _⟩
    · rw [h1] at hp; exact absurd hp (by simp)
    · rw [h1] at hp
      exact ⟨j, hj, by simpa [vector.addr] using hp.symm⟩

theorem evict_loop_hit (data : Nat) (l : List (FunctionSpecialization P)) (k j : Nat)
    (hj : j < l.length) :
    evict_loop data (data + (k + j)) l k = some (k + j) := by
  induction l generalizing k j with
  | nil => exact absurd hj (Nat.not_lt_zero j)
  | cons x rest ih =>
    cases j with
    | zero => simp [evict_loop]
    | succ j =>
      have hne : ¬ data + k = data + (k + (j + 1)) := by omega
      simp only [evict_loop, hne, if_false]
      have := ih (k + 1) j (by simpa using hj)
      have e1 : k + 1 + j = k + (j + 1) := by omega
      rw [e1] at this
      exact this

theorem evict_loop_miss (data s : Nat) (l : List (FunctionSpecialization P)) (k : Nat)
    (h : ∀ j : Nat, j < l.length → data + (k + j) ≠ s) :
    evict_loop data s l k = none := by
  induction l generalizing k with
  | nil => rfl
  | cons x rest ih =>
    have h0 : ¬ data + k = s := by simpa using h 0 (by simp)
    simp only [evict_loop, h0, if_false]
    apply ih
    intro j hj
    have := h (j + 1) (by simpa using hj)
    have e1 : k + 1 + j = k + (j + 1) := by omega
    rw [e1]
    exact this

/-- While a reference still is the address of the entry at position `i`,
`evict` with it returns `true` and leaves the repository with exactly that
entry removed, the others in their order; whatever `find` returns afterwards
is one of the entries that stood at another position. -/
theorem evict_at_current_address [RuntimeParams P] (self : SpecializationStorage P)
    (i : Nat) (hi : i < self._storage.elems.length) :
    self.evict (self._storage.addr i)
        = (true, { _storage := { self._storage with
                      elems := self._storage.elems.take i ++ self._storage.elems.drop (i + 1) } })
    ∧ ∀ (b : P) (score : match_t) (strategy : FindStrategy) (p : Nat),
        ((self.evict (self._storage.addr i)).2.find b score strategy).1 = some p →
        ∃ k : Nat, k + 1 < self._storage.elems.length
          ∧ p = (self.evict (self._storage.addr i)).2._storage.addr k
          ∧ (self.evict (self._storage.addr i)).2._storage.deref p
              = self._storage.elems[if k < i then k else k + 1]? := by
  have hev : self.evict (self._storage.addr i)
      = (true, { _storage := { self._storage with
                    elems := self._storage.elems.take i ++ self._storage.elems.drop (i + 1) } }) := by
    have := evict_loop_hit self._storage.data self._storage.elems 0 i hi
    simp only [Nat.zero_add] at this
    simp only [evict, vector.addr, this, vector.erase, List.eraseIdx_eq_take_drop_succ]
  refine ⟨hev, fun b score strategy p hp => ?_⟩
  rw [hev] at hp ⊢
  obtain ⟨k, hk, hpk⟩ := find_some_in_range _ b score strategy p hp
  simp only [List.length_append, List.length_take, List.length_drop] at hk
  have hk2 : k + 1 < self._storage.elems.length := by omega
  refine ⟨k, hk2, hpk, ?_⟩
  simp only [vector.addr] at hpk
  simp only [vector.deref, hpk, Nat.le_add_right, if_true, Nat.add_sub_cancel_left]
  by_cases hki : k < i
  · simp only [hki, if_true]
    rw [List.getElem?_append_left (by simp [List.length_take]; omega)]
    rw [List.getElem?_take_of_lt hki]
  · simp only [hki, if_false]
    rw [List.getElem?_append_right (by simp [List.length_take]; omega)]
    simp only [List.length_take, List.getElem?_drop]
    congr 1
    omega

/-- With an address at which no element of the vector lives at the moment,
`evict` returns `false` and leaves the repository as it was. -/
theorem evict_at_free_address (self : SpecializationStorage P) (specialization : Nat)
    (h : ∀ i : Nat, i < self._storage.elems.length → self._storage.addr i ≠ specialization) :
    self.evict specialization = (false, self) := by
  have := evict_loop_miss self._storage.data specialization self._storage.elems 0
    (fun j hj => by simpa [vector.addr] using h j hj)
  simp only [evict, this]

theorem map_moved (l : List (FunctionSpecialization P)) :
    l.map FunctionSpecialization.moved = l := by
  induction l with
  | nil => rfl
  | cons x rest ih => rw [List.map_cons, ih]; rfl

/-- C10. `store` leaves the repository with the previous entries in their
order followed by one new specialization that holds the given symbol and
binding and a null cached pointer; the returned reference is the address of
that last entry. -/
theorem C10_store_appends_new_entry (self : SpecializationStorage P) (newData : Nat)
    (jitSymbol : JITSymbol) (runtimeParams : P) :
    (self.store newData jitSymbol runtimeParams).1._storage.elems
        = self._storage.elems
          ++ [{ params := runtimeParams, _jitSymbol := jitSymbol, _pointer := 0 }]
    ∧ (self.store newData jitSymbol runtimeParams).1._storage.elems.length
        = self._storage.elems.length + 1
    ∧ (self.store newData jitSymbol runtimeParams).2
        = (self.store newData jitSymbol runtimeParams).1._storage.addr self._storage.elems.length
    ∧ (self.store newData jitSymbol runtimeParams).1._storage.deref
          (self.store newData jitSymbol runtimeParams).2
        = some { params := runtimeParams, _jitSymbol := jitSymbol, _pointer := 0 } := by
  have helems : (self.store newData jitSymbol runtimeParams).1._storage.elems
      = self._storage.elems
        ++ [{ params := runtimeParams, _jitSymbol := jitSymbol, _pointer := 0 }] := by
    simp only [store, vector.emplace_back, FunctionSpecialization.new]
    split <;> simp [map_moved]
  have hlen : (self.store newData jitSymbol runtimeParams).1._storage.elems.length
      = self._storage.elems.length + 1 := by rw [helems]; simp
  have href : (self.store newData jitSymbol runtimeParams).2
      = (self.store newData jitSymbol runtimeParams).1._storage.addr
          self._storage.elems.length := by
    have h2 := hlen
    simp only [store] at h2 ⊢
    rw [h2]
    rfl
  refine ⟨helems, hlen, href, ?_⟩
  rw [href, deref_addr _ _ (by rw [hlen]; omega)]
  simp [helems]

/-! ## Hits and misses of `find` -/

/-- Under every strategy `find` either misses, every entry mismatching, and
returns `nullptr` with `mismatch`, or returns the address of an entry that
does not mismatch together with that entry's score. -/
theorem find_cases [RuntimeParams P] (self : SpecializationStorage P) (b : P)
    (score : match_t) (strategy : FindStrategy) :
    (self.find b score strategy = (none, Binding.mismatch)
        ∧ ∀ e ∈ self._storage.elems, e.matchWith b = Binding.mismatch)
      ∨ ∃ (i : Nat) (hi : i < self._storage.elems.length),
          self.find b score strategy
              = (some (self._storage.addr i), self._storage.elems[i].matchWith b)
            ∧ self._storage.elems[i].matchWith b ≠ Binding.mismatch := by
  cases strategy with
  | First =>
    simp only [find, find_first]
    rcases find_first_last_mirror self._storage.data b self._storage.elems 0 with
      ⟨h1, _, h3⟩ | ⟨j, hj, h1, _, h3, _⟩
    · exact Or.inl ⟨h1, h3⟩
    · exact Or.inr ⟨j, hj, by simpa [vector.addr] using h1, h3⟩
  | Last =>
    simp only [find, find_last]
    rcases find_first_last_mirror self._storage.data b self._storage.elems.reverse 0 with
      ⟨_, h2, h3⟩ | ⟨j, hj, _, h2, h3, _⟩
    · exact Or.inl ⟨h2, fun e he => h3 e (List.mem_reverse.mpr he)⟩
    · have hj2 : j < self._storage.elems.length := by simpa using hj
      have hget : self._storage.elems.reverse[j]
          = self._storage.elems[self._storage.elems.length - 1 - j] := by
        simp [List.getElem_reverse]
      rw [hget] at h2 h3
      refine Or.inr ⟨self._storage.elems.length - 1 - j, by omega, ?_, h3⟩
      simpa [vector.addr] using h2
  | Best =>
    simp only [find, find_best]
    rcases find_best_loop_cases self._storage.data b self._storage.elems 0 none
      Binding.mismatch with ⟨h1, h2⟩ | ⟨j, hj, h1, h2⟩
    · exact Or.inl ⟨h1, fun e he => eq_mismatch_of_le _ (h2 e he)⟩
    · exact Or.inr ⟨j, hj, by simpa [vector.addr] using h1, h2⟩

/-- Under every strategy `find` returns `nullptr` exactly when every entry
mismatches. -/
theorem find_none_iff [RuntimeParams P] (self : SpecializationStorage P) (b : P)
    (score : match_t) (strategy : FindStrategy) :
    (self.find b score strategy).1 = none
      ↔ ∀ e ∈ self._storage.elems, e.matchWith b = Binding.mismatch := by
  rcases find_cases self b score strategy with ⟨h1, h2⟩ | ⟨i, hi, h1, h2⟩
  · rw [h1]; exact ⟨fun _ => h2, fun _ => rfl⟩
  · rw [h1]
    exact ⟨fun h => absurd h (by simp), fun h => absurd (h _ (List.getElem_mem _)) h2⟩

/-- The score `find` reports is the score of an entry, or `mismatch`. -/
theorem find_score_le_best [RuntimeParams P] (self : SpecializationStorage P) (b : P)
    (score : match_t) (strategy : FindStrategy) :
    (self.find b score strategy).2.val ≤ (self.find b score FindStrategy.Best).2.val := by
  have hge := find_best_loop_score_ge self._storage.data b self._storage.elems 0 none
    Binding.mismatch
  rcases find_cases self b score strategy with ⟨h1, _⟩ | ⟨i, hi, h1, _⟩
  · rw [h1]; exact hge.1
  · rw [h1]; exact hge.2 _ (List.getElem_mem _)

theorem find_first_run_loop_eq [RuntimeParams P] (b : P) (self : SpecializationStorage P)
    (l : List (FunctionSpecialization P)) (i : Nat) :
    find_first_run_loop b self l i
      = { self := self
          result := (find_first_loop self._storage.data b l i).1
          score := (find_first_loop self._storage.data b l i).2 } := by
  induction l generalizing i with
  | nil => rfl
  | cons x rest ih =>
    by_cases hx : x.matchWith b = Binding.mismatch
    · simp only [find_first_run_loop, find_first_loop, hx, ne_eq, not_true_eq_false, if_false]
      exact ih (i + 1)
    · simp only [find_first_run_loop, find_first_loop, hx, ne_eq, not_false_eq_true, if_true]

theorem find_last_run_loop_eq [RuntimeParams P] (b : P) (self : SpecializationStorage P)
    (l : List (FunctionSpecialization P)) :
    find_last_run_loop b self l
      = { self := self
          result := (find_last_loop self._storage.data b l).1
          score := (find_last_loop self._storage.data b l).2 } := by
  induction l with
  | nil => rfl
  | cons x rest ih =>
    by_cases hx : x.matchWith b = Binding.mismatch
    · simp only [find_last_run_loop, find_last_loop, hx, ne_eq, not_true_eq_false, if_false]
      exact ih
    · simp only [find_last_run_loop, find_last_loop, hx, ne_eq, not_false_eq_true, if_true]

theorem find_best_run_loop_eq [RuntimeParams P] (b : P) (self : SpecializationStorage P)
    (l : List (FunctionSpecialization P)) (i : Nat) (best : Option Nat) (score : match_t) :
    find_best_run_loop b self l i best score
      = { self := self
          result := (find_best_loop self._storage.data b l i best score).1
          score := (find_best_loop self._storage.data b l i best score).2 } := by
  induction l generalizing i best score with
  | nil => rfl
  | cons x rest ih =>
    by_cases hm : x.matchWith b = Binding.match_
    · simp only [find_best_run_loop, find_best_loop, hm, if_true]
    · by_cases hgt : (x.matchWith b).val > score.val
      · simp only [find_best_run_loop, find_best_loop, hm, if_false, hgt, if_true]
        exact ih (i + 1) _ _
      · simp only [find_best_run_loop, find_best_loop, hm, if_false, hgt]
        exact ih (i + 1) _ _

/-- A run of `find` hands back the object it was called on, and returns the
pointer and the score of `find`. -/
theorem find_run_eq [RuntimeParams P] (self : SpecializationStorage P) (b : P)
    (score : match_t) (strategy : FindStrategy) :
    self.find_run b score strategy
      = { self := self
          result := (self.find b score strategy).1
          score := (self.find b score strategy).2 } := by
  cases strategy with
  | First => exact find_first_run_loop_eq b self _ 0
  | Last => exact find_last_run_loop_eq b self _
  | Best => exact find_best_run_loop_eq b self _ 0 none Binding.mismatch

/-- C12. A call of `find` leaves the repository as it found it; the pointer
and the score it returns do not depend on the value `score` held before the
call; and a second call right after the first, on the repository and with the
score the first call left, returns the same pointer and the same score and
again leaves the repository as it is. -/
theorem C12_find_leaves_repository_and_repeats [RuntimeParams P]
    (self : SpecializationStorage P) (b : P) (strategy : FindStrategy)
    (score1 score2 : match_t) :
    (self.find_run b score1 strategy).self = self
      ∧ self.find_run b score1 strategy = self.find_run b score2 strategy
      ∧ (self.find_run b score1 strategy).self.find_run b
            (self.find_run b score1 strategy).score strategy
          = self.find_run b score1 strategy := by
  have hfind : ∀ s t : match_t, self.find b s strategy = self.find b t strategy := by
    intro s t
    cases strategy <;> rfl
  refine ⟨?_, ?_, ?_⟩
  · rw [find_run_eq]
  · rw [find_run_eq, find_run_eq, hfind score1 score2]
  · rw [find_run_eq self b score1 strategy]
    simp only
    rw [find_run_eq, hfind _ score1]

/-- C13. Under every strategy, a pointer `find` returns is the address of an
entry of the repository, that entry does not mismatch the requested binding,
and the score written is that entry's `matchWith` result. -/
theorem C13_find_returns_matching_entry [RuntimeParams P] (self : SpecializationStorage P)
    (b : P) (score : match_t) (strategy : FindStrategy) (p : Nat)
    (hp : (self.find b score strategy).1 = some p) :
    ∃ (i : Nat) (hi : i < self._storage.elems.length),
      p = self._storage.addr i
        ∧ self._storage.deref p = some self._storage.elems[i]
        ∧ self._storage.elems[i].matchWith b ≠ Binding.mismatch
        ∧ (self.find b score strategy).2 = self._storage.elems[i].matchWith b := by
  rcases find_cases self b score strategy with ⟨h1, _⟩ | ⟨i, hi, h1, h2⟩
  · rw [h1] at hp; exact absurd hp (by simp)
  · rw [h1] at hp ⊢
    have hpi : p = self._storage.addr i := by simpa using hp.symm
    exact ⟨i, hi, hpi, by rw [hpi]; exact deref_addr _ i hi, h2, rfl⟩

theorem C13_find_returns_matching_entry_witness :
    (sample599.find request Binding.mismatch FindStrategy.Last).1 = some 102
      ∧ ∃ (i : Nat) (hi : i < sample599._storage.elems.length),
          102 = sample599._storage.addr i
            ∧ sample599._storage.deref 102 = some sample599._storage.elems[i]
            ∧ sample599._storage.elems[i].matchWith request ≠ Binding.mismatch
            ∧ (sample599.find request Binding.mismatch FindStrategy.Last).2
                = sample599._storage.elems[i].matchWith request :=
  ⟨by decide,
    C13_find_returns_matching_entry sample599 request Binding.mismatch FindStrategy.Last 102
      (by decide)⟩

/-- C18. `Binding::matchWith` returns `mismatch` for every requested binding,
and on every repository of specializations with the default `Binding`, however
many entries it holds, `find` returns `nullptr` with score `mismatch` under
every strategy. -/
theorem C18_default_binding_never_matches :
    (∀ x requested : Binding, x.matchWith requested = Binding.mismatch)
      ∧ ∀ (self : SpecializationStorage Binding) (requested : Binding) (score : match_t)
          (strategy : FindStrategy),
          self.find requested score strategy = (none, Binding.mismatch) := by
  refine ⟨fun _ _ => rfl, fun self requested score strategy => ?_⟩
  rcases find_cases self requested score strategy with ⟨h1, _⟩ | ⟨i, hi, _, h2⟩
  · exact h1
  · exact absurd rfl h2

/-- C19. The three strategies hit and miss together, and on a hit the score
`Best` reports is at least the score `First` reports and at least the score
`Last` reports. -/
theorem C19_strategies_agree_on_hit_and_miss [RuntimeParams P]
    (self : SpecializationStorage P) (b : P) (score : match_t) :
    ((self.find b score FindStrategy.First).1 = none
        ↔ (self.find b score FindStrategy.Last).1 = none)
    ∧ ((self.find b score FindStrategy.Last).1 = none
        ↔ (self.find b score FindStrategy.Best).1 = none)
    ∧ ((self.find b score FindStrategy.Best).1 ≠ none →
        (self.find b score FindStrategy.First).2.val
            ≤ (self.find b score FindStrategy.Best).2.val
          ∧ (self.find b score FindStrategy.Last).2.val
            ≤ (self.find b score FindStrategy.Best).2.val) := by
  refine ⟨?_, ?_, fun _ => ⟨find_score_le_best self b score _, find_score_le_best self b score _⟩⟩
  · rw [find_none_iff, find_none_iff]
  · rw [find_none_iff, find_none_iff]

/-! ## References across `store` and `evict` -/

/-- After a `store` that reallocates into a buffer away from the old one, the
address an entry had before is no address of the repository: `evict` with it
returns `false` and removes nothing. -/
theorem evict_after_reallocating_store (self : SpecializationStorage P) (newData : Nat)
    (jitSymbol : JITSymbol) (runtimeParams : P) (i : Nat)
    (hfull : ¬ self._storage.elems.length < self._storage.capacity)
    (hfresh : ∀ k : Nat, k ≤ self._storage.elems.length → newData + k ≠ self._storage.addr i) :
    (self.store newData jitSymbol runtimeParams).1.evict (self._storage.addr i)
      = (false, (self.store newData jitSymbol runtimeParams).1) := by
  have hmiss := evict_loop_miss newData (self._storage.addr i)
    (self._storage.elems.map FunctionSpecialization.moved
      ++ [FunctionSpecialization.new jitSymbol runtimeParams]) 0
    (fun j hj => by
      have hj2 : j ≤ self._storage.elems.length := by
        simp only [List.length_append, List.length_map, List.length_singleton] at hj
        omega
      simpa using hfresh j hj2)
  simp only [store, vector.emplace_back, hfull, if_false, evict, hmiss]

/-- C11. A run in which a reference `store` returned is lost at the next
`store`: the first `store` returns the address 100; the second `store` finds
the vector full and moves the elements to a new buffer; the first entry is
still in the repository, but `evict` with the reference of the first `store`
returns `false` and removes nothing. -/
theorem C11_reference_lost_on_reallocation :
    afterStore1.2 = 100
      ∧ afterStore1.1._storage.deref afterStore1.2
          = some (FunctionSpecialization.new (symbolAt 4096) (fixed 1 (by decide)))
      ∧ afterStore2.1._storage.elems
          = [FunctionSpecialization.new (symbolAt 4096) (fixed 1 (by decide)),
             FunctionSpecialization.new (symbolAt 4112) (fixed 2 (by decide))]
      ∧ afterStore2.1._storage.deref afterStore1.2 = none
      ∧ afterStore2.1.evict afterStore1.2 = (false, afterStore2.1) := by
  decide

/-- C8. The run the claim names: two `store` calls, `evict` with the reference
the first `store` returned, then `find`. The second `store` has moved the first
entry to a new buffer, so `evict` returns `false` and removes nothing, and
`find` with `First` returns the very entry that was to be evicted. -/
theorem C8_evict_after_store_misses_entry :
    afterStore1.2 = 100
      ∧ afterStore2.1.evict afterStore1.2 = (false, afterStore2.1)
      ∧ (afterStore2.1.evict afterStore1.2).2.find request Binding.mismatch FindStrategy.First
          = (some 200, ⟨1, by decide⟩)
      ∧ (afterStore2.1.evict afterStore1.2).2._storage.deref 200
          = some (FunctionSpecialization.new (symbolAt 4096) (fixed 1 (by decide))) := by
  decide

/-- C9. A run in which `evict` is given a reference that identifies no entry
of the repository any more: four `store` calls, `evict` with the reference of
the third, and `evict` with that reference once more. The first `evict` removes
the third entry and moves the fourth to its address, so the second `evict`
returns `true` and removes the fourth entry. -/
theorem C9_evict_of_evicted_reference_removes_another :
    afterStore3.2 = 302
      ∧ afterEvict3.1 = true
      ∧ afterEvict3.2._storage.elems
          = [FunctionSpecialization.new (symbolAt 4096) (fixed 1 (by decide)),
             FunctionSpecialization.new (symbolAt 4112) (fixed 2 (by decide)),
             FunctionSpecialization.new (symbolAt 4144) (fixed 4 (by decide))]
      ∧ (afterEvict3.2.evict afterStore3.2).1 = true
      ∧ (afterEvict3.2.evict afterStore3.2).2._storage.elems
          = [FunctionSpecialization.new (symbolAt 4096) (fixed 1 (by decide)),
             FunctionSpecialization.new (symbolAt 4112) (fixed 2 (by decide))] := by
  decide

/-- At any one moment the entries of a repository live at pairwise distinct
addresses. -/
theorem addr_injective (self : SpecializationStorage P) (i j : Nat)
    (h : self._storage.addr i = self._storage.addr j) : i = j := by
  simp only [vector.addr] at h
  omega

/-- C14. A run after which two entries of the repository carry the same
reference from `store`: the fourth `store` returns the address 303; `evict`
of the third entry moves the fourth entry down to 302; the fifth `store`
returns 303 again, and the fourth and the fifth entry are both in the
repository. -/
theorem C14_store_returns_a_live_reference_again :
    afterStore4.2 = 303
      ∧ afterEvict3.1 = true
      ∧ afterStore5.2 = 303
      ∧ afterStore5.1._storage.elems
          = [FunctionSpecialization.new (symbolAt 4096) (fixed 1 (by decide)),
             FunctionSpecialization.new (symbolAt 4112) (fixed 2 (by decide)),
             FunctionSpecialization.new (symbolAt 4144) (fixed 4 (by decide)),
             FunctionSpecialization.new (symbolAt 4160) (fixed 5 (by decide))] := by
  decide

/-- After `evict` of the entry at position `i`, the entry that stood at a later
position `j` survives a following `evict` with the address it had: it stays in
the repository, one position further down. -/
theorem later_entry_survives_evict_of_its_old_address (self : SpecializationStorage P)
    (i j : Nat) (hij : i < j) (hj : j < self._storage.elems.length) :
    (self.evict (self._storage.addr i)).1 = true
      ∧ ((self.evict (self._storage.addr i)).2.evict (self._storage.addr j)).2._storage.elems[j - 1]?
          = some self._storage.elems[j] := by
  have hi : i < self._storage.elems.length := by omega
  have hhit := evict_loop_hit self._storage.data self._storage.elems 0 i hi
  simp only [Nat.zero_add] at hhit
  have hev : self.evict (self._storage.addr i)
      = (true, { _storage := self._storage.erase i }) := by
    simp only [evict, vector.addr, hhit]
  have hkeep : (self._storage.elems.eraseIdx i)[j - 1]? = some self._storage.elems[j] := by
    rw [List.getElem?_eraseIdx]
    have h1 : ¬ j - 1 < i := by omega
    have h2 : j - 1 + 1 = j := by omega
    simp [h1, h2, hj]
  refine ⟨by rw [hev], ?_⟩
  rw [hev]
  simp only [evict, vector.erase, vector.addr]
  cases hloop : evict_loop self._storage.data (self._storage.data + j)
      (self._storage.elems.eraseIdx i) 0 with
  | none => simpa using hkeep
  | some k =>
    have hk : k = j := by
      have key : ∀ (l : List (FunctionSpecialization P)) (n m : Nat),
          evict_loop self._storage.data (self._storage.data + j) l n = some m → m = j := by
        intro l
        induction l with
        | nil => intro n m h; simp [evict_loop] at h
        | cons x rest ih =>
          intro n m h
          simp only [evict_loop] at h
          split at h
          · have : n = m := by simpa using h
            omega
          · exact ih _ _ h
      exact key _ _ _ hloop
    subst hk
    simp only
    rw [List.getElem?_eraseIdx]
    have h1 : k - 1 < k := by omega
    simp only [h1, if_true]
    exact hkeep

/-- C17. A run in which `evict` of one entry breaks the reference of
another: the third and fourth `store` return 302 and 303; `evict` with 302
returns `true` and moves the fourth entry to 302; `evict` with 303, the
reference of the fourth entry, then returns `false` and leaves that entry in
the repository; and once a fifth entry is stored, `evict` with 303 removes the
fifth entry and again leaves the fourth. -/
theorem C17_evict_breaks_later_reference :
    afterStore3.2 = 302
      ∧ afterStore4.2 = 303
      ∧ afterStore4.1._storage.deref afterStore4.2
          = some (FunctionSpecialization.new (symbolAt 4144) (fixed 4 (by decide)))
      ∧ afterEvict3.1 = true
      ∧ afterEvict3.2._storage.elems
          = [FunctionSpecialization.new (symbolAt 4096) (fixed 1 (by decide)),
             FunctionSpecialization.new (symbolAt 4112) (fixed 2 (by decide)),
             FunctionSpecialization.new (symbolAt 4144) (fixed 4 (by decide))]
      ∧ afterEvict3.2._storage.deref afterStore4.2 = none
      ∧ afterEvict3.2.evict afterStore4.2 = (false, afterEvict3.2)
      ∧ (afterStore5.1.evict afterStore4.2).1 = true
      ∧ (afterStore5.1.evict afterStore4.2).2._storage.elems
          = [FunctionSpecialization.new (symbolAt 4096) (fixed 1 (by decide)),
             FunctionSpecialization.new (symbolAt 4112) (fixed 2 (by decide)),
             FunctionSpecialization.new (symbolAt 4144) (fixed 4 (by decide))] := by
  decide

end SpecializationStorage

namespace FunctionSpecialization

variable {P : Type}

/-! ## `get_pointer` and `invoke` -/

/-- C15. A specialization with a null `_pointer` whose symbol resolves to a
non-null address asks the symbol once, at the first `get_pointer`, and caches
the address; every later `get_pointer` returns that address without asking the
symbol and leaves the specialization as it is. -/
theorem C15_get_pointer_resolves_once (self : FunctionSpecialization P) (addr : Nat)
    (hnull : self._pointer = 0)
    (hres : self._jitSymbol.getAddress = Expected.value addr) (hne : addr ≠ 0) :
    self.get_pointer
        = { outcome := Outcome.returned addr
            self := { self with _pointer := addr }
            getAddressCalls := 1 }
    ∧ ∀ n : Nat,
        (Nat.iterate (fun s => s.get_pointer.self) n self.get_pointer.self).get_pointer
          = { outcome := Outcome.returned addr
              self := self.get_pointer.self
              getAddressCalls := 0 } := by
  have hfirst : self.get_pointer
      = { outcome := Outcome.returned addr
          self := { self with _pointer := addr }
          getAddressCalls := 1 } := by
    simp [get_pointer, hnull, hres, cantFail]
  have hlater : ({ self with _pointer := addr } : FunctionSpecialization P).get_pointer
      = { outcome := Outcome.returned addr
          self := { self with _pointer := addr }
          getAddressCalls := 0 } := by
    simp [get_pointer, hne]
  refine ⟨hfirst, fun n => ?_⟩
  rw [hfirst]
  have hfix : Nat.iterate (fun s : FunctionSpecialization P => s.get_pointer.self) n
      { self with _pointer := addr } = { self with _pointer := addr } := by
    induction n with
    | zero => rfl
    | succ n ih =>
      rw [Function.iterate_succ_apply, hlater]
      exact ih
  rw [hfix, hlater]

theorem C15_get_pointer_resolves_once_witness :
    (scored 5 (by decide)).get_pointer
        = { outcome := Outcome.returned 4096
            self := { scored 5 (by decide) with _pointer := 4096 }
            getAddressCalls := 1 }
    ∧ ∀ n : Nat,
        (Nat.iterate (fun s => s.get_pointer.self) n
            (scored 5 (by decide)).get_pointer.self).get_pointer
          = { outcome := Outcome.returned 4096
              self := (scored 5 (by decide)).get_pointer.self
              getAddressCalls := 0 } :=
  C15_get_pointer_resolves_once (scored 5 (by decide)) 4096 rfl rfl (by decide)

end FunctionSpecialization
end BmJit

namespace GlobJit

/-! ## The glob matchers -/

theorem lt_length_of_charAt_ne {s : List Char} {i : Nat} (h : charAt s i ≠ NUL) :
    i < s.length := by
  by_contra hge
  exact h (by simp [charAt, List.getD, List.getElem?_eq_none (Nat.le_of_not_lt hge)])

theorem charAt_of_lt {s : List Char} {i : Nat} (h : i < s.length) : charAt s i = s[i] := by
  simp [charAt, List.getD, List.getElem?_eq_getElem h]

theorem charAt_of_le {s : List Char} {i : Nat} (h : s.length ≤ i) : charAt s i = NUL := by
  simp [charAt, List.getD, List.getElem?_eq_none h]

/-- In a string without an embedded terminator the terminator is read exactly
behind the last character. -/
theorem charAt_ne_iff {s : List Char} (hs : NUL ∉ s) (i : Nat) :
    charAt s i ≠ NUL ↔ i < s.length := by
  constructor
  · exact lt_length_of_charAt_ne
  · intro h hc
    rw [charAt_of_lt h] at hc
    exact hs (hc ▸ List.getElem_mem _)

/-- One round of the loop of the case `*`. -/
theorem starLoop_step (testString : List Char) (body : Nat → Option Bool) (k : Nat)
    (hc : charAt testString k ≠ NUL) :
    starLoop testString body k
      = match body k with
        | some true => some true
        | some false => if k < INT_MAX then starLoop testString body (k + 1) else none
        | none => none := by
  rw [starLoop, dif_pos hc]
  cases hb : body k with
  | none => simp
  | some r => cases r <;> simp

theorem starLoop_stop (testString : List Char) (body : Nat → Option Bool) (k : Nat)
    (hc : charAt testString k = NUL) : starLoop testString body k = some false := by
  rw [starLoop, dif_neg (not_not.mpr hc)]

/-- When the loop of the case `*` returns `true`, `body` returned `true` at a
position where the string has a character. -/
theorem starLoop_true (testString : List Char) (body : Nat → Option Bool) (j : Nat)
    (h : starLoop testString body j = some true) :
    ∃ k : Nat, j ≤ k ∧ charAt testString k ≠ NUL ∧ body k = some true := by
  generalize hn : testString.length - j = n
  induction n using Nat.strong_induction_on generalizing j with
  | _ n ih =>
    by_cases hc : charAt testString j ≠ NUL
    · rw [starLoop_step _ _ _ hc] at h
      have hlt := lt_length_of_charAt_ne hc
      cases hb : body j with
      | none => rw [hb] at h; exact absurd h (by simp)
      | some r =>
        cases r with
        | true => exact ⟨j, Nat.le_refl j, hc, hb⟩
        | false =>
          rw [hb] at h
          by_cases hk : j < INT_MAX
          · simp only [hk, if_true] at h
            obtain ⟨k, hk1, hk2, hk3⟩ :=
              ih (testString.length - (j + 1)) (by omega) (j + 1) h rfl
            exact ⟨k, by omega, hk2, hk3⟩
          · simp only [hk, if_false] at h
            exact absurd h (by simp)
    · rw [starLoop_stop _ _ _ (not_not.mp hc)] at h
      exact absurd h (by simp)

/-- On a string of at most `INT_MAX` characters the loop of the case `*` has a
defined result when `body` has one at every position. -/
theorem starLoop_defined (testString : List Char) (body : Nat → Option Bool) (j : Nat)
    (hlen : testString.length ≤ INT_MAX) (hdef : ∀ k : Nat, body k ≠ none) :
    starLoop testString body j ≠ none := by
  generalize hn : testString.length - j = n
  induction n using Nat.strong_induction_on generalizing j with
  | _ n ih =>
    by_cases hc : charAt testString j ≠ NUL
    · rw [starLoop_step _ _ _ hc]
      have hlt := lt_length_of_charAt_ne hc
      have hk : j < INT_MAX := by omega
      cases hb : body j with
      | none => exact absurd hb (hdef j)
      | some r =>
        cases r with
        | true => simp
        | false =>
          simp only [hk, if_true]
          exact ih (testString.length - (j + 1)) (by omega) (j + 1) rfl
    · rw [starLoop_stop _ _ _ (not_not.mp hc)]
      simp

/-- On a string of at most `INT_MAX` characters the loop of the case `*`
returns `true` when `body` returns `true` at a position the loop can reach. -/
theorem starLoop_of_body (testString : List Char) (body : Nat → Option Bool) (j k : Nat)
    (hlen : testString.length ≤ INT_MAX) (hdef : ∀ m : Nat, body m ≠ none)
    (hjk : j ≤ k) (hchars : ∀ m : Nat, j ≤ m → m ≤ k → charAt testString m ≠ NUL)
    (hb : body k = some true) : starLoop testString body j = some true := by
  generalize hn : k - j = n
  induction n generalizing j with
  | zero =>
    have hkj : k = j := by omega
    subst hkj
    rw [starLoop_step _ _ _ (hchars k (Nat.le_refl k) (Nat.le_refl k)), hb]
  | succ n ih =>
    have hc := hchars j (Nat.le_refl j) hjk
    have hlt := lt_length_of_charAt_ne hc
    have hk : j < INT_MAX := by omega
    rw [starLoop_step _ _ _ hc]
    cases hbj : body j with
    | none => exact absurd hbj (hdef j)
    | some r =>
      cases r with
      | true => rfl
      | false =>
        simp only [hk, if_true]
        exact ih (j + 1) (by omega) (fun m hm1 hm2 => hchars m (by omega) hm2) (by omega)

/-- The loop of the case `*` returns `false` when `body` returns `false`
wherever the string has a character, on a string of at most `INT_MAX`
characters. -/
theorem starLoop_false (testString : List Char) (body : Nat → Option Bool) (j : Nat)
    (hlen : testString.length ≤ INT_MAX)
    (hb : ∀ k : Nat, charAt testString k ≠ NUL → body k = some false) :
    starLoop testString body j = some false := by
  generalize hn : testString.length - j = n
  induction n using Nat.strong_induction_on generalizing j with
  | _ n ih =>
    by_cases hc : charAt testString j ≠ NUL
    · have hlt := lt_length_of_charAt_ne hc
      have hk : j < INT_MAX := by omega
      rw [starLoop_step _ _ _ hc, hb j hc]
      simp only [hk, if_true]
      exact ih (testString.length - (j + 1)) (by omega) (j + 1) rfl
    · exact starLoop_stop _ _ _ (not_not.mp hc)

/-- The loop of the case `*` runs into the overflow of `++k` when the string
has a character at every position up to `INT_MAX` and `body` returns `false`
there. -/
theorem starLoop_overflow (testString : List Char) (body : Nat → Option Bool) (j : Nat)
    (hj : j ≤ INT_MAX)
    (hchars : ∀ k : Nat, j ≤ k → k ≤ INT_MAX → charAt testString k ≠ NUL)
    (hb : ∀ k : Nat, j ≤ k → k ≤ INT_MAX → body k = some false) :
    starLoop testString body j = none := by
  generalize hn : INT_MAX - j = n
  induction n generalizing j with
  | zero =>
    have hjm : ¬ j < INT_MAX := by omega
    rw [starLoop_step _ _ _ (hchars j (Nat.le_refl j) hj), hb j (Nat.le_refl j) hj]
    simp only [hjm, if_false]
  | succ n ih =>
    have hjm : j < INT_MAX := by omega
    rw [starLoop_step _ _ _ (hchars j (Nat.le_refl j) hj), hb j (Nat.le_refl j) hj]
    simp only [hjm, if_true]
    exact ih (j + 1) (by omega) (fun k h1 h2 => hchars k (by omega) h2)
      (fun k h1 h2 => hb k (by omega) h2) (by omega)

/-- The helper at a position of the pattern: the three cases of the `switch`,
with the index arithmetic in range. -/
theorem matchGenericHelper_question (pattern testString : List Char) (i j : Nat)
    (hi : i < INT_MAX) (hq : charAt pattern i = '?') :
    matchGenericHelper pattern testString i j
      = if charAt testString j ≠ NUL then
          if j < INT_MAX then matchGenericHelper pattern testString (i + 1) (j + 1) else none
        else some false := by
  have h0 : ¬ charAt pattern i = NUL := by rw [hq]; decide
  rw [matchGenericHelper, dif_neg h0, if_pos hq]
  simp only [hi, true_and]

theorem matchGenericHelper_star (pattern testString : List Char) (i j : Nat)
    (hi : i < INT_MAX) (hs : charAt pattern i = '*') :
    matchGenericHelper pattern testString i j
      = starLoop testString (fun k => matchGenericHelper pattern testString (i + 1) k) j := by
  have h0 : ¬ charAt pattern i = NUL := by rw [hs]; decide
  have hq : ¬ charAt pattern i = '?' := by rw [hs]; decide
  rw [matchGenericHelper, dif_neg h0, if_neg hq, if_pos hs]
  simp only [hi, if_true]

theorem matchGenericHelper_literal (pattern testString : List Char) (i j : Nat)
    (hi : i < INT_MAX) (h0 : charAt pattern i ≠ NUL) (hq : charAt pattern i ≠ '?')
    (hs : charAt pattern i ≠ '*') :
    matchGenericHelper pattern testString i j
      = if charAt testString j ≠ NUL ∧ charAt pattern i = charAt testString j then
          if j < INT_MAX then matchGenericHelper pattern testString (i + 1) (j + 1) else none
        else some false := by
  rw [matchGenericHelper, dif_neg h0, if_neg hq, if_neg hs]
  simp only [hi, true_and]

/-- At the end of the pattern the helper asks for the end of the string. -/
theorem matchGenericHelper_at_end (pattern testString : List Char) (i j : Nat)
    (hi : pattern.length ≤ i) :
    matchGenericHelper pattern testString i j = some (charAt testString j == NUL) := by
  rw [matchGenericHelper, dif_pos (charAt_of_le hi)]

/-- With a pattern and a test string of at most `INT_MAX` characters the
helper has a defined result from every pair of positions. -/
theorem matchGenericHelper_defined (pattern testString : List Char)
    (hplen : pattern.length ≤ INT_MAX) (hslen : testString.length ≤ INT_MAX) (i j : Nat) :
    matchGenericHelper pattern testString i j ≠ none := by
  generalize hn : pattern.length - i = n
  induction n using Nat.strong_induction_on generalizing i j with
  | _ n ih =>
    by_cases h0 : charAt pattern i = NUL
    · rw [matchGenericHelper, dif_pos h0]
      simp
    · have hlt := lt_length_of_charAt_ne h0
      have hi : i < INT_MAX := by omega
      have hnext : ∀ j2 : Nat, matchGenericHelper pattern testString (i + 1) j2 ≠ none :=
        fun j2 => ih (pattern.length - (i + 1)) (by omega) (i + 1) j2 rfl
      by_cases hq : charAt pattern i = '?'
      · rw [matchGenericHelper_question _ _ _ _ hi hq]
        by_cases hc : charAt testString j ≠ NUL
        · have hj : j < INT_MAX := by
            have := lt_length_of_charAt_ne hc
            omega
          rw [if_pos hc, if_pos hj]
          exact hnext _
        · rw [if_neg hc]
          simp
      · by_cases hs : charAt pattern i = '*'
        · rw [matchGenericHelper_star _ _ _ _ hi hs]
          exact starLoop_defined _ _ _ hslen hnext
        · rw [matchGenericHelper_literal _ _ _ _ hi h0 hq hs]
          by_cases hc : charAt testString j ≠ NUL ∧ charAt pattern i = charAt testString j
          · have hj : j < INT_MAX := by
              have := lt_length_of_charAt_ne hc.1
              omega
            rw [if_pos hc, if_pos hj]
            exact hnext _
          · rw [if_neg hc]
            simp

/-- The helper of `matchFixed` is the helper of `matchGeneric` at the pattern
`a*b*c?`, from every pair of positions. -/
theorem matchFixedHelper_eq (testString : List Char) (i j : Nat) :
    matchFixedHelper testString i j = matchGenericHelper fixedPattern testString i j := by
  generalize hn : fixedPattern.length - i = n
  induction n using Nat.strong_induction_on generalizing i j with
  | _ n ih =>
    rw [matchFixedHelper, matchGenericHelper]
    by_cases h0 : charAt fixedPattern i = NUL
    · simp only [h0, dite_true]
    · have hlt := lt_length_of_charAt_ne h0
      have ih2 : ∀ j2, matchFixedHelper testString (i + 1) j2
          = matchGenericHelper fixedPattern testString (i + 1) j2 :=
        fun j2 => ih (fixedPattern.length - (i + 1)) (by omega) (i + 1) j2 rfl
      simp only [h0, dite_false, ih2]

/-- Two runs of `matchFixed`: a string of the form `a..b..c.` is accepted,
the string `abc` is not. -/
theorem matchFixed_runs :
    matchFixed "axbyycz".toList = some true ∧ matchFixed "abc".toList = some false := by
  constructor <;>
    simp [matchFixed, matchFixedHelper, starLoop, charAt, fixedPattern, NUL, INT_MAX]

theorem charAt_last {p : List Char} {c : Char} (hlast : p.getLast? = some c) :
    0 < p.length ∧ charAt p (p.length - 1) = c := by
  have hne : p ≠ [] := by
    intro h
    rw [h] at hlast
    exact absurd hlast (by simp)
  have hpos : 0 < p.length := List.length_pos.mpr hne
  refine ⟨hpos, ?_⟩
  rw [List.getLast?_eq_getElem?] at hlast
  simp [charAt, List.getD, hlast]

/-- With a pattern that ends in `*` the helper returns `false` from every
position of the pattern, when pattern and test string have at most `INT_MAX`
characters. -/
theorem matchGenericHelper_last_star (pattern testString : List Char)
    (hp : NUL ∉ pattern) (hlast : pattern.getLast? = some '*')
    (hplen : pattern.length ≤ INT_MAX) (hslen : testString.length ≤ INT_MAX) (i j : Nat)
    (hi : i < pattern.length) : matchGenericHelper pattern testString i j = some false := by
  obtain ⟨_, hstar⟩ := charAt_last hlast
  generalize hn : pattern.length - i = n
  induction n using Nat.strong_induction_on generalizing i j with
  | _ n ih =>
    have h0 : charAt pattern i ≠ NUL := (charAt_ne_iff hp i).mpr hi
    have himax : i < INT_MAX := by omega
    have hnext : ∀ j2 : Nat, i + 1 < pattern.length →
        matchGenericHelper pattern testString (i + 1) j2 = some false :=
      fun j2 h => ih (pattern.length - (i + 1)) (by omega) (i + 1) j2 h rfl
    have hend : ¬ i + 1 < pattern.length → charAt pattern i = '*' := by
      intro h
      have hi2 : i = pattern.length - 1 := by omega
      rw [hi2]
      exact hstar
    by_cases hq : charAt pattern i = '?'
    · have hlt : i + 1 < pattern.length := by
        by_contra hge
        have := hend hge
        rw [hq] at this
        exact absurd this (by decide)
      rw [matchGenericHelper_question _ _ _ _ himax hq]
      by_cases hc : charAt testString j ≠ NUL
      · have hj : j < INT_MAX := by
          have := lt_length_of_charAt_ne hc
          omega
        rw [if_pos hc, if_pos hj]
        exact hnext _ hlt
      · rw [if_neg hc]
    · by_cases hs : charAt pattern i = '*'
      · rw [matchGenericHelper_star _ _ _ _ himax hs]
        apply starLoop_false _ _ _ hslen
        intro k hk
        by_cases hlt : i + 1 < pattern.length
        · exact hnext k hlt
        · rw [matchGenericHelper_at_end _ _ _ _ (by omega)]
          simp [hk]
      · have hlt : i + 1 < pattern.length := by
          by_contra hge
          exact hs (hend hge)
        rw [matchGenericHelper_literal _ _ _ _ himax h0 hq hs]
        by_cases hc : charAt testString j ≠ NUL ∧ charAt pattern i = charAt testString j
        · have hj : j < INT_MAX := by
            have := lt_length_of_charAt_ne hc.1
            omega
          rw [if_pos hc, if_pos hj]
          exact hnext _ hlt
        · rw [if_neg hc]

/-! ### The glob language, case by case -/

theorem globLanguage_question (rest s : List Char) :
    GlobLanguage ('?' :: rest) s
      ↔ ∃ (ch : Char) (t : List Char), s = ch :: t ∧ GlobLanguage rest t := by
  rw [GlobLanguage, if_pos rfl]

theorem globLanguage_star (rest s : List Char) :
    GlobLanguage ('*' :: rest) s
      ↔ ∃ x t : List Char, s = x ++ t ∧ GlobLanguage rest t := by
  rw [GlobLanguage, if_neg (by decide), if_pos rfl]

theorem globLanguage_literal (c : Char) (rest s : List Char) (hq : c ≠ '?') (hs : c ≠ '*') :
    GlobLanguage (c :: rest) s ↔ ∃ t : List Char, s = c :: t ∧ GlobLanguage rest t := by
  rw [GlobLanguage, if_neg hq, if_neg hs]

/-- Only a pattern made of `*` alone has the empty string in its language. -/
theorem globLanguage_nil (q : List Char) (h : GlobLanguage q []) :
    q = [] ∨ q.getLast? = some '*' := by
  induction q with
  | nil => exact Or.inl rfl
  | cons c rest ih =>
    right
    by_cases hq : c = '?'
    · subst hq
      obtain ⟨ch, t, ht, _⟩ := (globLanguage_question rest []).mp h
      exact absurd ht (by simp)
    · by_cases hs : c = '*'
      · subst hs
        obtain ⟨x, t, ht, hrest⟩ := (globLanguage_star rest []).mp h
        have ht2 : t = [] := (List.append_eq_nil.mp ht.symm).2
        subst ht2
        rcases ih hrest with h1 | h1
        · subst h1; rfl
        · cases rest with
          | nil => rfl
          | cons d more => simpa [List.getLast?_cons_cons] using h1
      · obtain ⟨t, ht, _⟩ := (globLanguage_literal c rest [] hq hs).mp h
        exact absurd ht (by simp)

/-- From every pair of positions the helper returns `true` exactly when the
rest of the string is in the glob language of the rest of the pattern, when the
pattern does not end in `*` and pattern and test string have no embedded
terminator and at most `INT_MAX` characters. -/
theorem matchGenericHelper_iff (pattern testString : List Char)
    (hp : NUL ∉ pattern) (hs : NUL ∉ testString) (hlast : pattern.getLast? ≠ some '*')
    (hplen : pattern.length ≤ INT_MAX) (hslen : testString.length ≤ INT_MAX) (i j : Nat) :
    matchGenericHelper pattern testString i j = some true
      ↔ GlobLanguage (pattern.drop i) (testString.drop j) := by
  generalize hn : pattern.length - i = n
  induction n using Nat.strong_induction_on generalizing i j with
  | _ n ih =>
    by_cases hi : i < pattern.length
    · have h0 : charAt pattern i ≠ NUL := (charAt_ne_iff hp i).mpr hi
      have himax : i < INT_MAX := by omega
      have hnext : ∀ j2 : Nat, matchGenericHelper pattern testString (i + 1) j2 = some true
          ↔ GlobLanguage (pattern.drop (i + 1)) (testString.drop j2) :=
        fun j2 => ih (pattern.length - (i + 1)) (by omega) (i + 1) j2 rfl
      have hc : charAt pattern i = pattern[i] := charAt_of_lt hi
      rw [List.drop_eq_getElem_cons hi, ← hc]
      by_cases hq : charAt pattern i = '?'
      · rw [matchGenericHelper_question _ _ _ _ himax hq, hq, globLanguage_question]
        by_cases hj : j < testString.length
        · have hcj : charAt testString j ≠ NUL := (charAt_ne_iff hs j).mpr hj
          have hjmax : j < INT_MAX := by omega
          rw [if_pos hcj, if_pos hjmax, List.drop_eq_getElem_cons hj, hnext]
          constructor
          · intro h; exact ⟨_, _, rfl, h⟩
          · rintro ⟨ch, t, ht, h⟩
            rw [(List.cons.inj ht).2]; exact h
        · have hcj : ¬ charAt testString j ≠ NUL :=
            not_not.mpr (charAt_of_le (Nat.le_of_not_lt hj))
          rw [if_neg hcj, List.drop_eq_nil_of_le (Nat.le_of_not_lt hj)]
          constructor
          · intro h; exact absurd h (by simp)
          · rintro ⟨ch, t, ht, _⟩; exact absurd ht (by simp)
      · by_cases hst : charAt pattern i = '*'
        · rw [matchGenericHelper_star _ _ _ _ himax hst, hst, globLanguage_star]
          have hi1 : i + 1 < pattern.length := by
            by_contra hge
            have hi2 : i = pattern.length - 1 := by omega
            apply hlast
            rw [List.getLast?_eq_getElem?, ← hi2, List.getElem?_eq_getElem hi, ← hc, hst]
          have hrest : ¬ GlobLanguage (pattern.drop (i + 1)) [] := by
            intro hg
            rcases globLanguage_nil _ hg with h1 | h1
            · have := congrArg List.length h1
              simp at this
              omega
            · rw [List.getLast?_drop, if_neg (by omega)] at h1
              exact hlast h1
          constructor
          · intro hloop
            obtain ⟨k, hjk, _, hk⟩ := starLoop_true _ _ _ hloop
            refine ⟨(testString.drop j).take (k - j), testString.drop k, ?_, (hnext k).mp hk⟩
            have hd : testString.drop k = (testString.drop j).drop (k - j) := by
              rw [List.drop_drop]; congr 1; omega
            rw [hd, List.take_append_drop]
          · rintro ⟨x, t, hxt, hg⟩
            have ht : t = testString.drop (j + x.length) := by
              rw [← List.drop_drop, hxt, List.drop_left]
            have hk : j + x.length < testString.length := by
              by_contra hge
              rw [ht, List.drop_eq_nil_of_le (Nat.le_of_not_lt hge)] at hg
              exact hrest hg
            apply starLoop_of_body testString _ j (j + x.length) hslen
              (fun m => matchGenericHelper_defined pattern testString hplen hslen (i + 1) m)
              (by omega)
            · intro m _ hm
              exact (charAt_ne_iff hs m).mpr (by omega)
            · rw [ht] at hg
              exact (hnext _).mpr hg
        · rw [matchGenericHelper_literal _ _ _ _ himax h0 hq hst,
            globLanguage_literal _ _ _ hq hst]
          by_cases hj : j < testString.length
          · have hcj : charAt testString j ≠ NUL := (charAt_ne_iff hs j).mpr hj
            have hcj2 : charAt testString j = testString[j] := charAt_of_lt hj
            have hjmax : j < INT_MAX := by omega
            rw [List.drop_eq_getElem_cons hj, ← hcj2]
            by_cases heq : charAt pattern i = charAt testString j
            · rw [if_pos ⟨hcj, heq⟩, if_pos hjmax, hnext]
              constructor
              · intro h; exact ⟨_, by rw [heq], h⟩
              · rintro ⟨t, ht, h⟩
                rw [(List.cons.inj ht).2]; exact h
            · rw [if_neg (fun h => heq h.2)]
              constructor
              · intro h; exact absurd h (by simp)
              · rintro ⟨t, ht, _⟩
                exact absurd (List.cons.inj ht).1.symm heq
          · have hcj : charAt testString j = NUL := charAt_of_le (Nat.le_of_not_lt hj)
            rw [if_neg (fun h => h.1 hcj), List.drop_eq_nil_of_le (Nat.le_of_not_lt hj)]
            constructor
            · intro h; exact absurd h (by simp)
            · rintro ⟨t, ht, _⟩; exact absurd ht (by simp)
    · have hge : pattern.length ≤ i := Nat.le_of_not_lt hi
      rw [matchGenericHelper_at_end _ _ _ _ hge, List.drop_eq_nil_of_le hge, GlobLanguage]
      constructor
      · intro h
        have h1 : charAt testString j = NUL := by simpa using h
        by_contra hne
        have hj : j < testString.length := by
          by_contra hj2
          exact hne (List.drop_eq_nil_of_le (Nat.le_of_not_lt hj2))
        exact (charAt_ne_iff hs j).mpr hj h1
      · intro h
        have hj : testString.length ≤ j := by
          by_contra hj2
          have := congrArg List.length h
          simp at this
          omega
        simp [charAt_of_le hj]

/-- The glob language of the pattern `a*b*c?`, spelled out. -/
theorem globLanguage_fixedPattern (s : List Char) :
    GlobLanguage "a*b*c?".toList s
      ↔ ∃ (x y : List Char) (ch : Char), s = ['a'] ++ x ++ ['b'] ++ y ++ ['c'] ++ [ch] := by
  have hpattern : "a*b*c?".toList = ['a', '*', 'b', '*', 'c', '?'] := by decide
  rw [hpattern, globLanguage_literal _ _ _ (by decide) (by decide)]
  constructor
  · rintro ⟨t1, h1, hg1⟩
    obtain ⟨x, t2, h2, hg2⟩ := (globLanguage_star _ _).mp hg1
    obtain ⟨t3, h3, hg3⟩ := (globLanguage_literal _ _ _ (by decide) (by decide)).mp hg2
    obtain ⟨y, t4, h4, hg4⟩ := (globLanguage_star _ _).mp hg3
    obtain ⟨t5, h5, hg5⟩ := (globLanguage_literal _ _ _ (by decide) (by decide)).mp hg4
    obtain ⟨ch, t6, h6, hg6⟩ := (globLanguage_question _ _).mp hg5
    rw [GlobLanguage] at hg6
    refine ⟨x, y, ch, ?_⟩
    rw [h1, h2, h3, h4, h5, h6, hg6]
    simp
  · rintro ⟨x, y, ch, h⟩
    refine ⟨x ++ 'b' :: (y ++ ['c', ch]), by rw [h]; simp, ?_⟩
    refine (globLanguage_star _ _).mpr ⟨x, 'b' :: (y ++ ['c', ch]), rfl, ?_⟩
    refine (globLanguage_literal _ _ _ (by decide) (by decide)).mpr ⟨y ++ ['c', ch], rfl, ?_⟩
    refine (globLanguage_star _ _).mpr ⟨y, ['c', ch], rfl, ?_⟩
    refine (globLanguage_literal _ _ _ (by decide) (by decide)).mpr ⟨[ch], rfl, ?_⟩
    refine (globLanguage_question _ _).mpr ⟨ch, [], rfl, ?_⟩
    rw [GlobLanguage]

/-! ### Strings of more than `INT_MAX` characters -/

theorem charAt_replicate_append (n : Nat) (c : Char) (t : List Char) (k : Nat) (hk : k < n) :
    charAt (List.replicate n c ++ t) k = c := by
  have hlen : k < (List.replicate n c).length := by simpa using hk
  have hget : (List.replicate n c ++ t)[k]? = some c := by
    rw [List.getElem?_append_left hlen, List.getElem?_eq_getElem hlen]
    simp
  simp [charAt, List.getD, hget]

theorem charAt_longAs_append (t : List Char) (k : Nat) (hk : k ≤ INT_MAX) :
    charAt (longAs ++ t) k = 'a' :=
  charAt_replicate_append 2147483653 'a' t k (by simp only [INT_MAX] at hk; omega)

theorem charAt_longAs (k : Nat) (hk : k ≤ INT_MAX) : charAt longAs k = 'a' := by
  have := charAt_longAs_append [] k hk
  rwa [List.append_nil] at this

/-- On the long string of `a`s the pattern `*` runs `++k` into the overflow. -/
theorem matchGeneric_star_longAs : matchGeneric "*".toList longAs = none := by
  have hpattern : "*".toList = ['*'] := by decide
  rw [matchGeneric, hpattern,
    matchGenericHelper_star _ _ 0 0 (by decide) (by decide)]
  apply starLoop_overflow _ _ 0 (Nat.zero_le _)
  · intro k _ hk
    rw [charAt_longAs k hk]
    decide
  · intro k _ hk
    rw [matchGenericHelper_at_end _ _ _ _ (by simp), charAt_longAs k hk]
    decide

/-- On the long string of `a`s followed by `b` the pattern `*b` runs `++k` into
the overflow. -/
theorem matchGeneric_starb_longAs : matchGeneric "*b".toList (longAs ++ ['b']) = none := by
  have hpattern : "*b".toList = ['*', 'b'] := by decide
  rw [matchGeneric, hpattern,
    matchGenericHelper_star _ _ 0 0 (by decide) (by decide)]
  apply starLoop_overflow _ _ 0 (Nat.zero_le _)
  · intro k _ hk
    rw [charAt_longAs_append _ k hk]
    decide
  · intro k _ hk
    rw [matchGenericHelper_literal _ _ 1 k (by decide) (by decide) (by decide) (by decide),
      charAt_longAs_append _ k hk]
    have hne : ¬ ('a' ≠ NUL ∧ charAt ['*', 'b'] 1 = 'a') := by decide
    rw [if_neg hne]

/-- On the long string of `a`s the pattern `a*b*c?` runs `++k` into the
overflow. -/
theorem matchGeneric_fixedPattern_longAs : matchGeneric fixedPattern longAs = none := by
  rw [matchGeneric,
    matchGenericHelper_literal _ _ 0 0 (by decide) (by decide) (by decide) (by decide),
    charAt_longAs 0 (Nat.zero_le _)]
  have h1 : 'a' ≠ NUL ∧ charAt fixedPattern 0 = 'a' := by decide
  have h2 : (0 : Nat) < INT_MAX := by decide
  rw [if_pos h1, if_pos h2,
    matchGenericHelper_star _ _ 1 1 (by decide) (by decide)]
  apply starLoop_overflow _ _ 1 (by decide)
  · intro k _ hk
    rw [charAt_longAs k hk]
    decide
  · intro k _ hk
    rw [matchGenericHelper_literal _ _ 2 k (by decide) (by decide) (by decide) (by decide),
      charAt_longAs k hk]
    have hne : ¬ ('a' ≠ NUL ∧ charAt fixedPattern 2 = 'a') := by decide
    rw [if_neg hne]

theorem nul_not_mem_longAs_append_b : NUL ∉ longAs ++ ['b'] := by
  intro h
  rcases List.mem_append.mp h with h1 | h1
  · have := List.eq_of_mem_replicate h1
    exact absurd this (by decide)
  · have : NUL = 'b' := by simpa using h1
    exact absurd this (by decide)

/-! ### The claims on the glob matchers -/

/-- C20, as the claim states it, fails: on a test string of 2147483653
characters `a` neither `matchFixed` nor `matchGeneric` with the pattern
`a*b*c?` returns a value; in both the loop of the first `*` increments `k`
beyond `INT_MAX`. -/
theorem C20_no_result_on_long_string :
    matchFixed longAs = none
      ∧ matchGeneric "a*b*c?".toList longAs = none
      ∧ ¬ ∃ r : Bool, matchFixed longAs = some r
          ∧ matchGeneric "a*b*c?".toList longAs = some r := by
  have hpattern : "a*b*c?".toList = fixedPattern := by decide
  have hfixed : matchFixed longAs = none := by
    rw [matchFixed, matchFixedHelper_eq]
    exact matchGeneric_fixedPattern_longAs
  refine ⟨hfixed, by rw [hpattern]; exact matchGeneric_fixedPattern_longAs, ?_⟩
  rintro ⟨r, h, _⟩
  rw [hfixed] at h
  exact absurd h (by simp)

/-- C20, amended. For every test string of at most `INT_MAX` characters,
`matchFixed` and `matchGeneric` with the pattern `a*b*c?` both return a value,
and it is the same value. -/
theorem C20_matchFixed_eq_matchGeneric (testString : List Char)
    (hlen : testString.length ≤ INT_MAX) :
    ∃ r : Bool, matchFixed testString = some r
      ∧ matchGeneric "a*b*c?".toList testString = some r := by
  have hpattern : "a*b*c?".toList = fixedPattern := by decide
  have hdef := matchGenericHelper_defined fixedPattern testString (by decide) hlen 0 0
  cases hr : matchGenericHelper fixedPattern testString 0 0 with
  | none => exact absurd hr hdef
  | some r =>
    refine ⟨r, ?_, ?_⟩
    · rw [matchFixed, matchFixedHelper_eq, hr]
    · rw [hpattern, matchGeneric, hr]

theorem C20_matchFixed_eq_matchGeneric_witness :
    "axbyycz".toList.length ≤ INT_MAX
      ∧ (∃ r : Bool, matchFixed "axbyycz".toList = some r
          ∧ matchGeneric "a*b*c?".toList "axbyycz".toList = some r)
      ∧ matchFixed "axbyycz".toList = some true :=
  ⟨by decide, C20_matchFixed_eq_matchGeneric "axbyycz".toList (by decide),
    by simp [matchFixed, matchFixedHelper, starLoop, charAt, fixedPattern, NUL, INT_MAX]⟩

/-- C21, as the claim states it, fails: the pattern `*b` does not end in `*`,
the test string of 2147483653 characters `a` followed by `b` is in its glob
language, neither has an embedded terminator, and `matchGeneric` does not
return `true` but has no result: the loop of the `*` increments `k` beyond
`INT_MAX`. -/
theorem C21_no_result_on_long_string :
    NUL ∉ "*b".toList
      ∧ NUL ∉ longAs ++ ['b']
      ∧ "*b".toList.getLast? ≠ some '*'
      ∧ GlobLanguage "*b".toList (longAs ++ ['b'])
      ∧ matchGeneric "*b".toList (longAs ++ ['b']) = none
      ∧ matchGeneric "*b".toList (longAs ++ ['b']) ≠ some true := by
  have hpattern : "*b".toList = ['*', 'b'] := by decide
  refine ⟨by decide, nul_not_mem_longAs_append_b, by decide, ?_, matchGeneric_starb_longAs, ?_⟩
  · rw [hpattern]
    refine (globLanguage_star _ _).mpr ⟨longAs, ['b'], rfl, ?_⟩
    refine (globLanguage_literal _ _ _ (by decide) (by decide)).mpr ⟨[], rfl, ?_⟩
    rw [GlobLanguage]
  · rw [matchGeneric_starb_longAs]
    simp

/-- C21, amended. For a pattern that does not end in `*` and a test string,
both without an embedded terminator and of at most `INT_MAX` characters,
`matchGeneric` returns a value, and the value is `true` exactly when the string
is in the glob language of the pattern; for the pattern `a*b*c?` these are the
strings `a`, any characters, `b`, any characters, `c` and one more
character. -/
theorem C21_matchGeneric_decides_glob_language (pattern testString : List Char)
    (hp : NUL ∉ pattern) (hs : NUL ∉ testString) (hlast : pattern.getLast? ≠ some '*')
    (hplen : pattern.length ≤ INT_MAX) (hslen : testString.length ≤ INT_MAX) :
    (∃ r : Bool, matchGeneric pattern testString = some r
        ∧ (r = true ↔ GlobLanguage pattern testString))
      ∧ ∃ r : Bool, matchGeneric "a*b*c?".toList testString = some r
        ∧ (r = true ↔ ∃ (x y : List Char) (ch : Char),
            testString = ['a'] ++ x ++ ['b'] ++ y ++ ['c'] ++ [ch]) := by
  have key : ∀ p : List Char, NUL ∉ p → p.getLast? ≠ some '*' → p.length ≤ INT_MAX →
      ∃ r : Bool, matchGeneric p testString = some r
        ∧ (r = true ↔ GlobLanguage p testString) := by
    intro p hp1 hp2 hp3
    have hiff := matchGenericHelper_iff p testString hp1 hs hp2 hp3 hslen 0 0
    rw [List.drop_zero, List.drop_zero] at hiff
    have hdef := matchGenericHelper_defined p testString hp3 hslen 0 0
    cases hr : matchGenericHelper p testString 0 0 with
    | none => exact absurd hr hdef
    | some r =>
      refine ⟨r, by rw [matchGeneric, hr], ?_⟩
      rw [← hiff, hr]
      simp
  refine ⟨key pattern hp hlast hplen, ?_⟩
  obtain ⟨r, h1, h2⟩ := key "a*b*c?".toList (by decide) (by decide) (by decide)
  exact ⟨r, h1, by rw [h2, globLanguage_fixedPattern]⟩

theorem C21_matchGeneric_decides_glob_language_witness :
    NUL ∉ "a?c".toList ∧ NUL ∉ "abc".toList ∧ "a?c".toList.getLast? ≠ some '*'
      ∧ "a?c".toList.length ≤ INT_MAX ∧ "abc".toList.length ≤ INT_MAX
      ∧ (∃ r : Bool, matchGeneric "a?c".toList "abc".toList = some r
          ∧ (r = true ↔ GlobLanguage "a?c".toList "abc".toList))
      ∧ ∃ r : Bool, matchGeneric "a*b*c?".toList "abc".toList = some r
          ∧ (r = true ↔ ∃ (x y : List Char) (ch : Char),
              "abc".toList = ['a'] ++ x ++ ['b'] ++ y ++ ['c'] ++ [ch]) :=
  ⟨by decide, by decide, by decide, by decide, by decide,
    C21_matchGeneric_decides_glob_language "a?c".toList "abc".toList
      (by decide) (by decide) (by decide) (by decide) (by decide)⟩

/-- Two runs of `matchGeneric` on the same string: the pattern `a?c` accepts
`abc`, the pattern `a*b*c?` does not. -/
theorem matchGeneric_runs :
    matchGeneric "a?c".toList "abc".toList = some true
      ∧ matchGeneric "a*b*c?".toList "abc".toList = some false := by
  constructor <;> simp [matchGeneric, matchGenericHelper, starLoop, charAt, NUL, INT_MAX]

/-- C22, as the claim states it, fails: against the pattern `*`, a test string
of 2147483653 characters `a` does not give `false`; `matchGeneric` has no
result, the loop increments `k` beyond `INT_MAX` before it reaches the
terminator. -/
theorem C22_no_result_on_long_string :
    NUL ∉ "*".toList
      ∧ "*".toList.getLast? = some '*'
      ∧ matchGeneric "*".toList longAs = none
      ∧ matchGeneric "*".toList longAs ≠ some false := by
  refine ⟨by decide, by decide, matchGeneric_star_longAs, ?_⟩
  rw [matchGeneric_star_longAs]
  simp

/-- C22, amended. For every pattern that ends in `*` and every test string,
the empty one included, both of at most `INT_MAX` characters, `matchGeneric`
returns `false`. -/
theorem C22_matchGeneric_trailing_star_false (pattern testString : List Char)
    (hp : NUL ∉ pattern) (hlast : pattern.getLast? = some '*')
    (hplen : pattern.length ≤ INT_MAX) (hslen : testString.length ≤ INT_MAX) :
    matchGeneric pattern testString = some false :=
  matchGenericHelper_last_star pattern testString hp hlast hplen hslen 0 0
    (charAt_last hlast).1

theorem C22_matchGeneric_trailing_star_false_witness :
    (NUL ∉ "*".toList ∧ "*".toList.getLast? = some '*'
        ∧ "*".toList.length ≤ INT_MAX ∧ "".toList.length ≤ INT_MAX
        ∧ matchGeneric "*".toList "".toList = some false)
      ∧ NUL ∉ "a*".toList ∧ "a*".toList.getLast? = some '*'
        ∧ "a*".toList.length ≤ INT_MAX ∧ "abc".toList.length ≤ INT_MAX
        ∧ matchGeneric "a*".toList "abc".toList = some false :=
  ⟨⟨by decide, by decide, by decide, by decide,
      C22_matchGeneric_trailing_star_false "*".toList "".toList
        (by decide) (by decide) (by decide) (by decide)⟩,
    by decide, by decide, by decide, by decide,
    C22_matchGeneric_trailing_star_false "a*".toList "abc".toList
      (by decide) (by decide) (by decide) (by decide)⟩

end GlobJit
